import Mathlib

/-!
Verification development for the magnetosensitivity knowledge-base Neo4j
export pipeline (`scripts/neo4j_schema.py`, `scripts/neo4j_exporter.py`,
`scripts/neo4j_connection.py`).

The Python code writes to Neo4j through three Cypher query templates
(a Paper `MERGE ... SET`, a term `MERGE ... SET n += $props`, and a
relationship `MATCH / MATCH / MERGE ... SET`).  We embed the backend as an
explicit property graph (`Graph`) and the three templates as a `Query`
datatype interpreted by `runQuery`, which implements the standard Cypher
semantics of those templates: a node `MERGE` matches every node carrying the
pattern's label and key property and updates all of them, or creates one node
when nothing matches; the relationship template matches subject and object
nodes by `name` regardless of label, and for every matched pair merges one
directed edge of the resolved type.  A `SET` of a property stores the given
value; a parameter that is Python `None` is modelled as the stored value
`Val.vNull`.

Loosely-typed source records (paper dicts, term dicts, relationship dicts)
are modelled as association lists of string keys to `Val`, with Python's
`d[k]` as `rget` (raising = `Except.error`) and `d.get(k, default)` as
`rgetD`.  The per-item `try/except` blocks of the exporter are modelled
exactly, including the behaviour of the `except` handlers themselves
(the paper handler re-reads `paper['paper_id']`; the relationship handler
interpolates the loop locals `subject`/`predicate`/`obj`, which are unbound
on a first-iteration failure).
-/

/-- Property values appearing in the corpus records and in graph properties.
`vNull` models Python `None` / JSON null. -/
inductive Val where
  | vStr (s : String)
  | vInt (n : Int)
  | vList (l : List String)
  | vNull
deriving DecidableEq

/-- A loosely-typed record (Python dict with string keys) as an association
list; first occurrence of a key wins, mirroring dict lookup. -/
abbrev Record := List (String × Val)

/-- Python `d[k]` / `d.get(k)` lookup: first entry with the given key. -/
def rget : Record → String → Option Val
  | [], _ => none
  | (a, b) :: rest, k => if a = k then some b else rget rest k

/-- Python `d.get(k, default)`. -/
def rgetD (r : Record) (k : String) (d : Val) : Val :=
  (rget r k).getD d

/-- Store a property value: replace the first entry with the key, or append. -/
def rset : Record → String → Val → Record
  | [], k, v => [(k, v)]
  | (a, b) :: rest, k, v => if a = k then (k, v) :: rest else (a, b) :: rset rest k v

/-- Apply a batch of property writes left to right (Cypher `SET` list /
`SET n += $props`). -/
def rsetMany (r : Record) (u : Record) : Record :=
  u.foldl (fun acc e => rset acc e.1 e.2) r

/-- Generic string-keyed association-list lookup (for the schema mapping
tables and category dictionaries). -/
def alookup {α : Type} : List (String × α) → String → Option α
  | [], _ => none
  | (a, b) :: rest, k => if a = k then some b else alookup rest k

/-! ## Schema (`neo4j_schema.py`) -/

/-- `ONTOLOGY_CATEGORY_MAPPING` from `neo4j_schema.py`. -/
def ONTOLOGY_CATEGORY_MAPPING : List (String × String) :=
  [("mechanisms", "Mechanism"),
   ("proteins", "Protein"),
   ("cofactors_and_radicals", "Cofactor"),
   ("organisms", "Organism"),
   ("magnetic_fields", "MagneticField"),
   ("experimental_techniques", "Technique"),
   ("computational_methods", "Technique"),
   ("magnetic_interactions", "Term"),
   ("photochemistry", "Term"),
   ("spin_states", "Term")]

/-- `PREDICATE_MAPPING` from `neo4j_schema.py`. -/
def PREDICATE_MAPPING : List (String × String) :=
  [("is_a", "IS_A"),
   ("contains", "CONTAINS"),
   ("exhibits", "EXHIBITS"),
   ("located_in", "RELATED_TO"),
   ("related_to", "RELATED_TO"),
   ("sensitive_to", "SENSITIVE_TO"),
   ("requires", "REQUIRES"),
   ("depends_on", "RELATED_TO"),
   ("detects", "DETECTS"),
   ("measures", "DETECTS"),
   ("monitors", "DETECTS"),
   ("models", "MODELS"),
   ("predicts", "MODELS"),
   ("drives", "REQUIRES"),
   ("provides", "RELATED_TO"),
   ("isolates", "RELATED_TO"),
   ("cofactor_of", "CONTAINS"),
   ("forms_radical_pair_with", "FORMS_RADICAL_PAIR_WITH"),
   ("electron_donor_for", "ELECTRON_DONOR_FOR"),
   ("triggers", "REQUIRES"),
   ("forms", "RELATED_TO"),
   ("interconverts_with", "RELATED_TO"),
   ("uses", "RELATED_TO"),
   ("produces", "RELATED_TO"),
   ("characteristic_of", "RELATED_TO"),
   ("enhances", "RELATED_TO")]

/-- The 8 node labels declared in `NODE_TYPES` of `neo4j_schema.py`. -/
def NODE_TYPE_NAMES : List String :=
  ["Paper", "Term", "Protein", "Organism", "Technique", "MagneticField",
   "Cofactor", "Mechanism"]

/-- The 14 relationship types declared in `RELATIONSHIP_TYPES` of
`neo4j_schema.py`. -/
def RELATIONSHIP_TYPE_NAMES : List String :=
  ["CITES", "STUDIES", "USES_TECHNIQUE", "DEFINES_TERM", "IS_A", "RELATED_TO",
   "EXHIBITS", "CONTAINS", "DETECTS", "MODELS", "SENSITIVE_TO", "REQUIRES",
   "FORMS_RADICAL_PAIR_WITH", "ELECTRON_DONOR_FOR"]

/-- `get_node_type_for_category`: `ONTOLOGY_CATEGORY_MAPPING.get(category, "Term")`. -/
def get_node_type_for_category (category : String) : String :=
  (alookup ONTOLOGY_CATEGORY_MAPPING category).getD "Term"

/-- `get_relationship_type_for_predicate`:
`PREDICATE_MAPPING.get(predicate, "RELATED_TO")`. -/
def get_relationship_type_for_predicate (predicate : String) : String :=
  (alookup PREDICATE_MAPPING predicate).getD "RELATED_TO"

/-! ## The backend property graph and the Cypher templates -/

/-- A graph node: a single label (all nodes in this pipeline are created with
exactly one label) and a property record. -/
structure GNode where
  label : String
  props : Record
deriving DecidableEq

/-- A directed edge between node positions, with a relationship type and
properties. -/
structure GEdge where
  src : Nat
  dst : Nat
  relType : String
  props : Record
deriving DecidableEq

/-- The backend state: node identity is the position in `nodes`. -/
structure Graph where
  nodes : List GNode
  edges : List GEdge
deriving DecidableEq

/-- Does a node match the pattern `(n:label {key: keyVal})`? -/
def nodeMatches (l k : String) (v : Val) (nd : GNode) : Bool :=
  nd.label = l && rget nd.props k == some v

/-- The two Cypher write templates issued by the exporter.
`nodeMerge l k v u` is `MERGE (n:l {k: $v}) SET <u>` (for the Paper template
`u` lists the five `SET` clauses; for the term template `u` is the `$props`
map of `SET n += $props`).  `edgeMerge rt s o u` is
`MATCH (a {name: $s}) MATCH (b {name: $o}) MERGE (a)-[r:rt]->(b) SET <u>`. -/
inductive Query where
  | nodeMerge (label key : String) (keyVal : Val) (updates : Record)
  | edgeMerge (relType : String) (subj obj : Val) (updates : Record)
deriving DecidableEq

/-- `MERGE (n:l {k: v}) SET <u>`: update every matching node, or create one
node carrying the pattern properties and then apply the `SET`. -/
def runNodeMerge (g : Graph) (l k : String) (v : Val) (u : Record) : Graph :=
  if g.nodes.any (nodeMatches l k v) then
    { g with nodes := g.nodes.map (fun nd =>
        if nodeMatches l k v nd then { nd with props := rsetMany nd.props u } else nd) }
  else
    { g with nodes := g.nodes ++ [{ label := l, props := rsetMany [(k, v)] u }] }

/-- Positions of the nodes matching `MATCH (x {name: $v})` (any label). -/
def nameMatchIdx (g : Graph) (v : Val) : List Nat :=
  (List.range g.nodes.length).filter (fun i =>
    match g.nodes[i]? with
    | some nd => rget nd.props "name" == some v
    | none => false)

/-- Cartesian product of the subject and object match rows, subject outer. -/
def listProd (as bs : List Nat) : List (Nat × Nat) :=
  as.flatMap (fun a => bs.map (fun b => (a, b)))

/-- Does an edge match `(a)-[r:rt]->(b)` for row `(i, j)`? -/
def edgeKeyMatches (i j : Nat) (rt : String) (e : GEdge) : Bool :=
  e.src == i && e.dst == j && e.relType == rt

/-- One row of the relationship `MERGE`: update every matching edge, or
create one edge and apply the `SET`. -/
def mergeEdgeStep (rt : String) (u : Record) (es : List GEdge) (p : Nat × Nat) :
    List GEdge :=
  if es.any (edgeKeyMatches p.1 p.2 rt) then
    es.map (fun e =>
      if edgeKeyMatches p.1 p.2 rt e then { e with props := rsetMany e.props u } else e)
  else
    es ++ [{ src := p.1, dst := p.2, relType := rt, props := rsetMany [] u }]

/-- Execute one query against the graph. -/
def runQuery (g : Graph) : Query → Graph
  | .nodeMerge l k v u => runNodeMerge g l k v u
  | .edgeMerge rt s o u =>
    { g with edges :=
        (listProd (nameMatchIdx g s) (nameMatchIdx g o)).foldl (mergeEdgeStep rt u) g.edges }

/-- Execute a list of queries in order. -/
def applyAll (g : Graph) (qs : List Query) : Graph :=
  qs.foldl runQuery g

/-- A backend session: the graph plus the log of executed queries
(`session.run` both executes and logs). -/
structure Session where
  g : Graph
  log : List Query
deriving DecidableEq

/-- `session.run(query, ...)`. -/
def Session.run (s : Session) (q : Query) : Session :=
  { g := runQuery s.g q, log := s.log ++ [q] }

/-! ## `Neo4jExporter.create_paper_nodes` -/

/-- The Paper query built by `create_paper_nodes` for one record:
`MERGE (p:Paper {paper_id: $paper_id}) SET p.doi = $doi, p.title = $title,
p.authors = $authors, p.year = $year, p.date_added = $date_added` with the
parameter defaults of the source (`paper.get("doi", "")`, etc.;
`paper.get("year")` defaults to `None`). -/
def paper_query (pid : Val) (paper : Record) : Query :=
  .nodeMerge "Paper" "paper_id" pid
    [("doi", rgetD paper "doi" (.vStr "")),
     ("title", rgetD paper "title" (.vStr "")),
     ("authors", rgetD paper "authors" (.vList [])),
     ("year", rgetD paper "year" .vNull),
     ("date_added", rgetD paper "date_added" (.vStr ""))]

/-- The per-paper loop of `create_paper_nodes`.  The `try` block reads
`paper["paper_id"]`; if the key is missing, control reaches the `except`
handler, whose f-string itself evaluates `paper['paper_id']` and therefore
raises `KeyError` out of the function. -/
def paperLoop : Session → Nat → List Record → Except String (Session × Nat)
  | s, created, [] => .ok (s, created)
  | s, created, paper :: rest =>
    match rget paper "paper_id" with
    | some pid => paperLoop (s.run (paper_query pid paper)) (created + 1) rest
    | none => .error "KeyError: paper_id"

/-- `Neo4jExporter.create_paper_nodes`: returns the session and the
`created` counter. -/
def create_paper_nodes (s : Session) (papers : List Record) :
    Except String (Session × Nat) :=
  paperLoop s 0 papers

/-! ## `Neo4jExporter.create_term_nodes` -/

/-- One optional property: included exactly when the field is present in the
source record (`if "synonyms" in term_data: ...`). -/
def optional_prop (td : Record) (k : String) : Record :=
  match rget td k with
  | some v => [(k, v)]
  | none => []

/-- The `$props` dict built by `create_term_nodes` for one term. -/
def term_props (tid : String) (td : Record) : Record :=
  [("name", .vStr tid),
   ("definition", rgetD td "definition" (.vStr "")),
   ("source", rgetD td "source" (.vStr ""))]
  ++ optional_prop td "synonyms"
  ++ optional_prop td "variants"
  ++ optional_prop td "organisms"
  ++ optional_prop td "radical_forms"
  ++ optional_prop td "typical_values"
  ++ optional_prop td "applications"

/-- The term query for one term:
`MERGE (n:{node_type} {name: $name}) SET n += $props`. -/
def term_query (cat tid : String) (td : Record) : Query :=
  .nodeMerge (get_node_type_for_category cat) "name" (.vStr tid) (term_props tid td)

/-- Inner loop of `create_term_nodes` over the terms of one category.  The
`try` body contains no failing operation in this model (all record reads use
`.get` with defaults), so it is total. -/
def termCatLoop (cat : String) : Session → Nat → List (String × Record) → Session × Nat
  | s, created, [] => (s, created)
  | s, created, (tid, td) :: rest =>
    termCatLoop cat (s.run (term_query cat tid td)) (created + 1) rest

/-- The category map `terms.get("categories", {})`: category name to
(term_id to term record), insertion-ordered. -/
abbrev TermsDict := List (String × List (String × Record))

/-- Outer loop of `create_term_nodes` over categories, accumulating
`total_created`. -/
def termsLoop : Session → Nat → TermsDict → Session × Nat
  | s, total, [] => (s, total)
  | s, total, (cat, ts) :: rest =>
    match termCatLoop cat s 0 ts with
    | (s', created) => termsLoop s' (total + created) rest

/-- `Neo4jExporter.create_term_nodes`. -/
def create_term_nodes (s : Session) (cats : TermsDict) : Session × Nat :=
  termsLoop s 0 cats

/-! ## `Neo4jExporter.create_relationships` -/

/-- The ontology relationships file contents: the `"relationships"` list and
the optional `"hierarchies"` / `"process_flows"` pass-through substructures. -/
structure RelsDict where
  relationships : List Record
  hierarchies : Option Val
  process_flows : Option Val
deriving DecidableEq

/-- `get_relationship_type_for_predicate(rel["predicate"])` applied to a raw
value: `PREDICATE_MAPPING.get(v, "RELATED_TO")` returns the default for any
non-string (non-key) value. -/
def relTypeOf (p : Val) : String :=
  match p with
  | .vStr s => get_relationship_type_for_predicate s
  | _ => "RELATED_TO"

/-- The relationship query for one tuple:
`MATCH (a {name: $subject}) MATCH (b {name: $object})
MERGE (a)-[r:{rel_type}]->(b) SET r.predicate = $predicate, r.source = $source`. -/
def rel_query (rt : String) (subj obj predicate source : Val) : Query :=
  .edgeMerge rt subj obj [("predicate", predicate), ("source", source)]

/-- State of the `create_relationships` loop: the session, the `created`
counter, the number of completed `except`-handler executions (failures that
were actually logged), and the Python loop locals `subject` / `predicate` /
`obj`, which persist across iterations and are unbound before the first
binding. -/
structure RelLoopState where
  s : Session
  created : Nat
  failed : Nat
  subjVar : Option Val
  predVar : Option Val
  objVar : Option Val
deriving DecidableEq

/-- The `except` handler of `create_relationships`: its f-string interpolates
`subject`, `predicate` and `obj`; if any of them is unbound the handler
raises `NameError`, otherwise it prints (logging the failure) and the loop
continues. -/
def relHandler (st : RelLoopState) : Except String RelLoopState :=
  match st.subjVar, st.predVar, st.objVar with
  | some _, some _, some _ => .ok { st with failed := st.failed + 1 }
  | _, _, _ => .error "NameError in handler"

/-- One iteration of the `create_relationships` loop, with the exact binding
order of the `try` block (`subject`, then `predicate`, then `obj`).  A
`KeyError` from a missing key transfers control to the handler with whatever
locals are bound at that point. -/
def relStep (st : RelLoopState) (rel : Record) : Except String RelLoopState :=
  match rget rel "subject" with
  | none => relHandler st
  | some sv =>
    match rget rel "predicate" with
    | none => relHandler { st with subjVar := some sv }
    | some pv =>
      match rget rel "object" with
      | none => relHandler { st with subjVar := some sv, predVar := some pv }
      | some ov =>
        let src := rgetD rel "source" (.vStr "")
        let rt := relTypeOf pv
        .ok { st with
                s := st.s.run (rel_query rt sv ov pv src),
                created := st.created + 1,
                subjVar := some sv, predVar := some pv, objVar := some ov }

/-- The loop of `create_relationships`. -/
def relLoop : RelLoopState → List Record → Except String RelLoopState
  | st, [] => .ok st
  | st, rel :: rest =>
    match relStep st rel with
    | .ok st' => relLoop st' rest
    | .error e => .error e

/-- `Neo4jExporter.create_relationships`: returns the session, the `created`
counter, and the number of logged per-item failures. -/
def create_relationships (s : Session) (rels : List Record) :
    Except String (Session × Nat × Nat) :=
  match relLoop { s := s, created := 0, failed := 0,
                  subjVar := none, predVar := none, objVar := none } rels with
  | .ok st => .ok (st.s, st.created, st.failed)
  | .error e => .error e

/-! ## `Neo4jExporter.export_to_neo4j` (write sequence) -/

/-- The write sequence of `export_to_neo4j` inside one session: paper nodes,
then term nodes, then relationships (index creation issues no data writes).
Returns the final session. -/
def sync_corpus (papers : List Record) (terms : TermsDict) (rels : RelsDict)
    (g : Graph) : Except String Session :=
  match create_paper_nodes { g := g, log := [] } papers with
  | .error e => .error e
  | .ok (s1, _) =>
    match create_term_nodes s1 terms with
    | (s2, _) =>
      match create_relationships s2 rels.relationships with
      | .error e => .error e
      | .ok (s3, _, _) => .ok s3

/-! ## `Neo4jExporter.filter_subgraph` -/

/-- Python truthiness of an optional-list argument: `None` and `[]` are
falsy. -/
def truthyList (o : Option (List String)) : Bool :=
  match o with
  | none => false
  | some l => !l.isEmpty

/-- `v in ids` for a set/list of strings: true only for a member string. -/
def valInStrList (v : Val) (ids : List String) : Bool :=
  match v with
  | .vStr s => ids.contains s
  | _ => false

/-- The paper list comprehension
`[p for p in all_papers if p['paper_id'] in paper_ids]`; a record without
`paper_id` raises `KeyError`. -/
def paperFilterLoop (ids : List String) : List Record → Except String (List Record)
  | [] => .ok []
  | p :: rest =>
    match rget p "paper_id" with
    | none => .error "KeyError: paper_id"
    | some pv =>
      match paperFilterLoop ids rest with
      | .error e => .error e
      | .ok tail => .ok (if valInStrList pv ids then p :: tail else tail)

/-- Dict insertion `filtered_terms["categories"][cat] = ...`:
replace an existing key or append. -/
def dictInsert (d : TermsDict) (k : String) (v : List (String × Record)) : TermsDict :=
  if d.any (fun e => e.1 = k) then d.map (fun e => if e.1 = k then (k, v) else e)
  else d ++ [(k, v)]

/-- `for cat in categories: if cat in all_terms["categories"]: keep it`. -/
def filterCatsLoop (all : TermsDict) (acc : TermsDict) : List String → TermsDict
  | [] => acc
  | c :: rest =>
    match alookup all c with
    | some v => filterCatsLoop all (dictInsert acc c v) rest
    | none => filterCatsLoop all acc rest

/-- `term_ids`: the union of the term identifiers of the filtered categories
(set semantics: only membership is used). -/
def termIdsOf (cats : TermsDict) : List String :=
  cats.flatMap (fun e => e.2.map Prod.fst)

/-- The filter condition
`rel["subject"] in term_ids or rel["object"] in term_ids`, including
Python's short-circuit (a missing `object` key only raises when the subject
test is false) and `KeyError` on missing keys. -/
def relKeepE (termIds : List String) (rel : Record) : Except String Bool :=
  match rget rel "subject" with
  | none => .error "KeyError: subject"
  | some sv =>
    if valInStrList sv termIds then .ok true
    else
      match rget rel "object" with
      | none => .error "KeyError: object"
      | some ov => .ok (valInStrList ov termIds)

/-- The relationships list comprehension of `filter_subgraph`. -/
def relFilterLoop (termIds : List String) : List Record → Except String (List Record)
  | [] => .ok []
  | r :: rest =>
    match relKeepE termIds r with
    | .error e => .error e
    | .ok keep =>
      match relFilterLoop termIds rest with
      | .error e => .error e
      | .ok tail => .ok (if keep then r :: tail else tail)

/-- `Neo4jExporter.filter_subgraph` on loaded corpus data.  The `organisms`
criterion is accepted but never used, as in the source. -/
def filter_subgraph (papers : List Record) (terms : TermsDict) (rels : RelsDict)
    (paper_ids : Option (List String)) (categories : Option (List String))
    (organisms : Option (List String)) :
    Except String (List Record × TermsDict × RelsDict) :=
  match (if truthyList paper_ids then paperFilterLoop (paper_ids.getD []) papers
         else .ok papers) with
  | .error e => .error e
  | .ok filtered_papers =>
    let filtered_terms :=
      if truthyList categories then filterCatsLoop terms [] (categories.getD [])
      else terms
    match relFilterLoop (termIdsOf filtered_terms) rels.relationships with
    | .error e => .error e
    | .ok filtered_rels =>
      .ok (filtered_papers, filtered_terms,
           { relationships := filtered_rels,
             hierarchies := rels.hierarchies,
             process_flows := rels.process_flows })

/-! ## `Neo4jExporter.preview_export` -/

/-- A counts dictionary (`defaultdict(int)`): missing keys read as 0. -/
abbrev CountMap := List (String × Nat)

/-- Read a counter (missing key = 0). -/
def cmGet : CountMap → String → Nat
  | [], _ => 0
  | e :: rest, k => if e.1 = k then e.2 else cmGet rest k

/-- Write a counter (dict assignment). -/
def cmSet : CountMap → String → Nat → CountMap
  | [], k, n => [(k, n)]
  | e :: rest, k, n => if e.1 = k then (k, n) :: rest else e :: cmSet rest k n

/-- `m[k] += n` on a `defaultdict(int)`. -/
def cmAdd (m : CountMap) (k : String) (n : Nat) : CountMap :=
  cmSet m k (cmGet m k + n)

/-- `for category, cat_terms in terms: node_counts[node_type] += len(cat_terms)`. -/
def previewNodeCountsLoop (acc : CountMap) : TermsDict → CountMap
  | [] => acc
  | (cat, ts) :: rest =>
    previewNodeCountsLoop (cmAdd acc (get_node_type_for_category cat) ts.length) rest

/-- `for rel in relationships: rel_counts[rel_type] += 1`; `rel["predicate"]`
raises on a missing key. -/
def previewRelCountsLoop (acc : CountMap) : List Record → Except String CountMap
  | [] => .ok acc
  | r :: rest =>
    match rget r "predicate" with
    | none => .error "KeyError: predicate"
    | some pv => previewRelCountsLoop (cmAdd acc (relTypeOf pv) 1) rest

/-- The paper-listing part of `preview_export`: reads `p['paper_id']` for the
first 10 papers, which can raise. -/
def previewListCheck : List Record → Except String Unit
  | [] => .ok ()
  | p :: rest =>
    match rget p "paper_id" with
    | none => .error "KeyError: paper_id"
    | some _ => previewListCheck rest

/-- `Neo4jExporter.preview_export`: the per-NodeType and per-RelationshipType
count tables. -/
def preview_export (papers : List Record) (terms : TermsDict) (rels : RelsDict) :
    Except String (CountMap × CountMap) :=
  let node_counts := previewNodeCountsLoop [("Paper", papers.length)] terms
  match previewRelCountsLoop [] rels.relationships with
  | .error e => .error e
  | .ok rel_counts =>
    match previewListCheck (papers.take 10) with
    | .error e => .error e
    | .ok _ => .ok (node_counts, rel_counts)

/-! ## `Neo4jConnection.clear_database` -/

/-- `Neo4jConnection.clear_database`: without `confirm` it performs no write
and returns `False`; with `confirm` it runs `MATCH (n) DETACH DELETE n`
(removing every node and, with them, every relationship) and returns
`True`. -/
def clear_database (g : Graph) (confirm : Bool) : Graph × Bool :=
  if !confirm then (g, false)
  else ({ nodes := [], edges := [] }, true)

/-! ## Decidability instances for concrete evaluation -/

deriving instance DecidableEq for Except

instance : DecidableEq TermsDict := List.hasDecEq

/-! ## Record lemmas -/

theorem rget_rset (r : Record) (a : String) (b : Val) (k : String) :
    rget (rset r a b) k = if a = k then some b else rget r k := by
  induction r with
  | nil => simp [rset, rget]
  | cons e rest ih =>
    obtain ⟨a', b'⟩ := e
    by_cases h : a' = a
    · subst h
      by_cases hk : a' = k <;> simp [rset, rget, hk]
    · by_cases hk : a' = k
      · subst hk
        have : ¬ a = a' := fun hh => h hh.symm
        simp [rset, rget, h, this]
      · simp [rset, rget, h, hk, ih]

theorem rsetMany_cons (r : Record) (e : String × Val) (u : Record) :
    rsetMany r (e :: u) = rsetMany (rset r e.1 e.2) u := rfl

theorem rget_rsetMany_of_not_mem (u : Record) (k : String)
    (h : ∀ e ∈ u, e.1 ≠ k) (r : Record) :
    rget (rsetMany r u) k = rget r k := by
  induction u generalizing r with
  | nil => rfl
  | cons e u ih =>
    rw [rsetMany_cons, ih (fun e' he' => h e' (List.mem_cons_of_mem _ he')),
        rget_rset]
    have : ¬ e.1 = k := h e (List.mem_cons_self _ _)
    simp [this]

theorem rget_rsetMany_of_all_eq (u : Record) (k : String) (v : Val)
    (hall : ∀ e ∈ u, e.1 = k → e.2 = v) (r : Record) (h : rget r k = some v) :
    rget (rsetMany r u) k = some v := by
  induction u generalizing r with
  | nil => exact h
  | cons e u ih =>
    rw [rsetMany_cons]
    refine ih (fun e' he' => hall e' (List.mem_cons_of_mem _ he')) _ ?_
    rw [rget_rset]
    by_cases hk : e.1 = k
    · simp [hk, hall e (List.mem_cons_self _ _) hk]
    · simp [hk, h]

theorem rget_rsetMany_of_mem (u : Record) (k : String) (v : Val)
    (hall : ∀ e ∈ u, e.1 = k → e.2 = v) (hmem : ∃ e ∈ u, e.1 = k) (r : Record) :
    rget (rsetMany r u) k = some v := by
  induction u generalizing r with
  | nil => simp at hmem
  | cons e u ih =>
    rw [rsetMany_cons]
    by_cases hk : e.1 = k
    · have hv : e.2 = v := hall e (List.mem_cons_self _ _) hk
      refine rget_rsetMany_of_all_eq u k v
        (fun e' he' => hall e' (List.mem_cons_of_mem _ he')) _ ?_
      rw [rget_rset]
      simp [hk, hv]
    · obtain ⟨e', he', hk'⟩ := hmem
      rcases List.mem_cons.mp he' with h1 | h1
      · exact absurd (h1 ▸ hk') hk
      · exact ih (fun e'' he'' => hall e'' (List.mem_cons_of_mem _ he''))
          ⟨e', h1, hk'⟩ _

theorem rget_rsetMany_keeps (u : Record) (tk k : String) (v : Val)
    (hk : ∀ e ∈ u, e.1 = tk → (k = tk ∧ e.2 = v))
    (P : Record) (hP : rget P k = some v) :
    rget (rsetMany P u) tk = rget P tk := by
  by_cases hex : ∃ e ∈ u, e.1 = tk
  · obtain ⟨e, he, hek⟩ := hex
    obtain ⟨hkk, _⟩ := hk e he hek
    subst hkk
    rw [rget_rsetMany_of_all_eq u k v (fun e' he' h' => (hk e' he' h').2) P hP, hP]
  · push_neg at hex
    exact rget_rsetMany_of_not_mem u tk hex P

theorem alookup_mem_values {α : Type} (m : List (String × α)) (s : String) (v : α)
    (h : alookup m s = some v) : v ∈ m.map Prod.snd := by
  induction m with
  | nil => simp [alookup] at h
  | cons e rest ih =>
    obtain ⟨a, b⟩ := e
    by_cases hk : a = s
    · simp [alookup, hk] at h
      simp [h]
    · simp only [alookup, hk, if_false] at h
      simp [ih h]

/-! ## Supporting lemmas for the relationship template -/

theorem listProd_nil_left (bs : List Nat) : listProd [] bs = [] := rfl

theorem listProd_nil_right (as : List Nat) : listProd as [] = [] := by
  simp [listProd]

/-! ## C3 -/

/-- C3: for every string input, `get_node_type_for_category` returns one of
the eight declared node types, defaulting to `"Term"` when the category is
not in the mapping table, and `get_relationship_type_for_predicate` returns
one of the fourteen declared relationship types, defaulting to
`"RELATED_TO"` when the predicate is unmapped.  Both functions are total
Lean functions over all of `String` (including `""`), so neither can fail. -/
theorem mapping_functions_total_with_defaults (s : String) :
    (get_node_type_for_category s ∈ NODE_TYPE_NAMES ∧
      (alookup ONTOLOGY_CATEGORY_MAPPING s = none →
        get_node_type_for_category s = "Term")) ∧
    (get_relationship_type_for_predicate s ∈ RELATIONSHIP_TYPE_NAMES ∧
      (alookup PREDICATE_MAPPING s = none →
        get_relationship_type_for_predicate s = "RELATED_TO")) := by
  have hsub1 : ∀ x ∈ ONTOLOGY_CATEGORY_MAPPING.map Prod.snd, x ∈ NODE_TYPE_NAMES := by
    decide
  have hsub2 : ∀ x ∈ PREDICATE_MAPPING.map Prod.snd, x ∈ RELATIONSHIP_TYPE_NAMES := by
    decide
  refine ⟨⟨?_, ?_⟩, ⟨?_, ?_⟩⟩
  · unfold get_node_type_for_category
    cases h : alookup ONTOLOGY_CATEGORY_MAPPING s with
    | none => decide
    | some v => exact hsub1 v (alookup_mem_values _ _ _ h)
  · intro h
    unfold get_node_type_for_category
    rw [h]
    rfl
  · unfold get_relationship_type_for_predicate
    cases h : alookup PREDICATE_MAPPING s with
    | none => decide
    | some v => exact hsub2 v (alookup_mem_values _ _ _ h)
  · intro h
    unfold get_relationship_type_for_predicate
    rw [h]
    rfl

/-- Witness for C3 at the empty string. -/
theorem mapping_functions_total_with_defaults_witness :
    (get_node_type_for_category "" ∈ NODE_TYPE_NAMES ∧
      (alookup ONTOLOGY_CATEGORY_MAPPING "" = none →
        get_node_type_for_category "" = "Term")) ∧
    (get_relationship_type_for_predicate "" ∈ RELATIONSHIP_TYPE_NAMES ∧
      (alookup PREDICATE_MAPPING "" = none →
        get_relationship_type_for_predicate "" = "RELATED_TO")) :=
  mapping_functions_total_with_defaults ""

/-! ## C9 -/

/-- C9: `clear_database` with `confirm = false` leaves the graph untouched
and returns `false`; with `confirm = true` it empties the backend (zero
nodes, zero relationships) and returns `true`. -/
theorem clear_database_confirm_gate (g : Graph) :
    clear_database g false = (g, false) ∧
    (clear_database g true).1.nodes.length = 0 ∧
    (clear_database g true).1.edges.length = 0 ∧
    (clear_database g true).2 = true :=
  ⟨rfl, rfl, rfl, rfl⟩

/-- Witness for C9 at a concrete one-node graph. -/
theorem clear_database_confirm_gate_witness :
    clear_database { nodes := [{ label := "Paper", props := [] }], edges := [] } false
      = ({ nodes := [{ label := "Paper", props := [] }], edges := [] }, false) ∧
    (clear_database { nodes := [{ label := "Paper", props := [] }], edges := [] } true).1.nodes.length = 0 ∧
    (clear_database { nodes := [{ label := "Paper", props := [] }], edges := [] } true).1.edges.length = 0 ∧
    (clear_database { nodes := [{ label := "Paper", props := [] }], edges := [] } true).2 = true :=
  clear_database_confirm_gate { nodes := [{ label := "Paper", props := [] }], edges := [] }

/-! ## C5 -/

/-- C5: the per-item error handling does not always contain failures.  A
paper record without `paper_id` reaches the `except` handler of
`create_paper_nodes`, whose own f-string re-evaluates `paper['paper_id']`
and raises `KeyError` out of the function; a first relationship record with
a missing key makes the handler of `create_relationships` interpolate
unbound loop locals, raising `NameError` out of the function. -/
theorem malformed_record_error_escapes_handler :
    create_paper_nodes { g := { nodes := [], edges := [] }, log := [] } [[]]
      = .error "KeyError: paper_id" ∧
    create_relationships { g := { nodes := [], edges := [] }, log := [] }
      [[("predicate", .vStr "is_a")]]
      = .error "NameError in handler" := by
  exact ⟨rfl, rfl⟩

/-! ## C4 -/

/-- C4 counterexample: on an empty backend, a relationship whose endpoints
match no node is NOT recorded as a failure (0 logged failures) and the
created-relationship counter IS incremented (returns 1), while no edge is
created: the `MATCH` clauses simply produce zero rows and the query
succeeds. -/
theorem rel_missing_endpoint_counted_as_created :
    create_relationships { g := { nodes := [], edges := [] }, log := [] }
      [[("subject", .vStr "a"), ("predicate", .vStr "is_a"), ("object", .vStr "b")]]
      = .ok ({ g := { nodes := [], edges := [] },
               log := [.edgeMerge "IS_A" (.vStr "a") (.vStr "b")
                         [("predicate", .vStr "is_a"), ("source", .vStr "")]] },
             1, 0) := by
  decide

/-- C4 as amended: a relationship tuple whose subject (or object) matches no
node in the graph leaves the graph completely unchanged (in particular no
edge is created), but it is not recorded as a per-item failure and the
created counter is incremented; processing continues with the subsequent
tuples. -/
theorem rel_missing_endpoint_silently_skipped (st : RelLoopState) (rel : Record)
    (sv pv ov : Val)
    (hs : rget rel "subject" = some sv) (hp : rget rel "predicate" = some pv)
    (ho : rget rel "object" = some ov)
    (hmiss : nameMatchIdx st.s.g sv = [] ∨ nameMatchIdx st.s.g ov = []) :
    ∃ st', relStep st rel = .ok st' ∧
      st'.s.g = st.s.g ∧
      st'.created = st.created + 1 ∧
      st'.failed = st.failed ∧
      ∀ rest, relLoop st (rel :: rest) = relLoop st' rest := by
  have hedges : listProd (nameMatchIdx st.s.g sv) (nameMatchIdx st.s.g ov) = [] := by
    rcases hmiss with h | h
    · rw [h, listProd_nil_left]
    · rw [h, listProd_nil_right]
  have hstep : relStep st rel = .ok { st with
      s := st.s.run (rel_query (relTypeOf pv) sv ov pv (rgetD rel "source" (.vStr ""))),
      created := st.created + 1,
      subjVar := some sv, predVar := some pv, objVar := some ov } := by
    simp only [relStep, hs, hp, ho]
  refine ⟨_, hstep, ?_, rfl, rfl, fun rest => ?_⟩
  · show (st.s.run (rel_query (relTypeOf pv) sv ov pv (rgetD rel "source" (.vStr "")))).g
        = st.s.g
    simp only [Session.run, rel_query, runQuery, hedges, List.foldl]
  · simp only [relLoop, hstep]

/-- Witness for the amended C4 on a concrete empty backend. -/
theorem rel_missing_endpoint_silently_skipped_witness :
    (rget [(("subject" : String), Val.vStr "a"), (("predicate" : String), Val.vStr "is_a"),
           (("object" : String), Val.vStr "b")] "subject" = some (.vStr "a")) ∧
    ∃ st', relStep { s := { g := { nodes := [], edges := [] }, log := [] },
                     created := 0, failed := 0,
                     subjVar := none, predVar := none, objVar := none }
             [("subject", .vStr "a"), ("predicate", .vStr "is_a"), ("object", .vStr "b")]
           = .ok st' ∧
      st'.s.g = { nodes := [], edges := [] } ∧
      st'.created = 0 + 1 ∧
      st'.failed = 0 ∧
      ∀ rest, relLoop { s := { g := { nodes := [], edges := [] }, log := [] },
                        created := 0, failed := 0,
                        subjVar := none, predVar := none, objVar := none }
                ([("subject", .vStr "a"), ("predicate", .vStr "is_a"), ("object", .vStr "b")] :: rest)
              = relLoop st' rest :=
  ⟨by decide,
   rel_missing_endpoint_silently_skipped _ _ (.vStr "a") (.vStr "is_a") (.vStr "b")
     (by decide) (by decide) (by decide) (Or.inl (by decide))⟩

/-! ## C10 -/

theorem rget_paper_updates (P : Record) (d t a y da : Val) :
    rget (rsetMany P [("doi", d), ("title", t), ("authors", a), ("year", y),
                      ("date_added", da)]) "doi" = some d ∧
    rget (rsetMany P [("doi", d), ("title", t), ("authors", a), ("year", y),
                      ("date_added", da)]) "title" = some t ∧
    rget (rsetMany P [("doi", d), ("title", t), ("authors", a), ("year", y),
                      ("date_added", da)]) "authors" = some a ∧
    rget (rsetMany P [("doi", d), ("title", t), ("authors", a), ("year", y),
                      ("date_added", da)]) "year" = some y ∧
    rget (rsetMany P [("doi", d), ("title", t), ("authors", a), ("year", y),
                      ("date_added", da)]) "date_added" = some da := by
  simp only [rsetMany, List.foldl]
  simp [rget_rset]

/-- C10: `create_paper_nodes` overwrites unconditionally.  For a paper record
that carries only `paper_id`, the upsert of that record sets, on every
matching existing Paper node, `doi`, `title` and `date_added` to `""`,
`authors` to `[]` and `year` to null — previous values are not preserved. -/
theorem paper_upsert_overwrites_defaults (s : Session) (r : Record) (pid : Val)
    (hpid : rget r "paper_id" = some pid)
    (hdoi : rget r "doi" = none) (htitle : rget r "title" = none)
    (hauth : rget r "authors" = none) (hyear : rget r "year" = none)
    (hda : rget r "date_added" = none)
    (hm : s.g.nodes.any (nodeMatches "Paper" "paper_id" pid) = true) :
    ∃ s', create_paper_nodes s [r] = .ok (s', 1) ∧
      s'.g.nodes.length = s.g.nodes.length ∧
      ∀ nd ∈ s'.g.nodes, nodeMatches "Paper" "paper_id" pid nd = true →
        rget nd.props "doi" = some (.vStr "") ∧
        rget nd.props "title" = some (.vStr "") ∧
        rget nd.props "authors" = some (.vList []) ∧
        rget nd.props "year" = some .vNull ∧
        rget nd.props "date_added" = some (.vStr "") := by
  have hq : paper_query pid r = .nodeMerge "Paper" "paper_id" pid
      [("doi", .vStr ""), ("title", .vStr ""), ("authors", .vList []),
       ("year", .vNull), ("date_added", .vStr "")] := by
    simp [paper_query, rgetD, hdoi, htitle, hauth, hyear, hda]
  have hcp : create_paper_nodes s [r] = .ok (s.run (paper_query pid r), 1) := by
    simp [create_paper_nodes, paperLoop, hpid]
  refine ⟨_, hcp, ?_, ?_⟩
  · show (s.run (paper_query pid r)).g.nodes.length = s.g.nodes.length
    rw [hq]
    simp [Session.run, runQuery, runNodeMerge, hm]
  · intro nd hnd hmatch
    rw [hq] at hnd
    simp only [Session.run, runQuery, runNodeMerge, hm, if_true] at hnd
    obtain ⟨nd0, hnd0, rfl⟩ := List.mem_map.mp hnd
    by_cases h0 : nodeMatches "Paper" "paper_id" pid nd0 = true
    · simp only [h0, if_true]
      exact rget_paper_updates nd0.props _ _ _ _ _
    · simp only [h0, if_false] at hmatch
      exact absurd hmatch h0

/-- Witness for C10: an existing Paper node with an old `doi` gets it
overwritten with `""` by a record that lacks a `doi` field. -/
theorem paper_upsert_overwrites_defaults_witness :
    (rget [(("paper_id" : String), Val.vStr "p1")] "paper_id" = some (.vStr "p1")) ∧
    ∃ s', create_paper_nodes
            { g := { nodes := [{ label := "Paper",
                                 props := [("paper_id", .vStr "p1"), ("doi", .vStr "old")] }],
                     edges := [] },
              log := [] }
            [[("paper_id", .vStr "p1")]]
          = .ok (s', 1) ∧
      s'.g.nodes.length = 1 ∧
      ∀ nd ∈ s'.g.nodes, nodeMatches "Paper" "paper_id" (.vStr "p1") nd = true →
        rget nd.props "doi" = some (.vStr "") ∧
        rget nd.props "title" = some (.vStr "") ∧
        rget nd.props "authors" = some (.vList []) ∧
        rget nd.props "year" = some .vNull ∧
        rget nd.props "date_added" = some (.vStr "") :=
  ⟨by decide,
   paper_upsert_overwrites_defaults _ _ (.vStr "p1") (by decide) (by decide) (by decide)
     (by decide) (by decide) (by decide) (by decide)⟩

/-! ## C8 -/

/-- The category-specific optional fields copied by `create_term_nodes`. -/
def optionalTermKeys : List String :=
  ["synonyms", "variants", "organisms", "radical_forms", "typical_values",
   "applications"]

theorem optional_prop_mem (td : Record) (k : String) (e : String × Val)
    (he : e ∈ optional_prop td k) : e.1 = k ∧ rget td k = some e.2 := by
  unfold optional_prop at he
  cases h : rget td k with
  | none => rw [h] at he; simp at he
  | some v =>
    rw [h] at he
    simp only [List.mem_singleton] at he
    subst he
    exact ⟨rfl, rfl⟩

theorem term_props_mem (tid : String) (td : Record) (e : String × Val)
    (he : e ∈ term_props tid td) :
    e = ("name", .vStr tid) ∨
    e = ("definition", rgetD td "definition" (.vStr "")) ∨
    e = ("source", rgetD td "source" (.vStr "")) ∨
    (e.1 ∈ optionalTermKeys ∧ rget td e.1 = some e.2) := by
  have hopt : ∀ k, k ∈ optionalTermKeys → e ∈ optional_prop td k →
      e.1 ∈ optionalTermKeys ∧ rget td e.1 = some e.2 := by
    intro k hk hek
    obtain ⟨h1, h2⟩ := optional_prop_mem td k e hek
    rw [h1]
    exact ⟨hk, h2⟩
  unfold term_props at he
  rcases List.mem_append.mp he with h | h
  rotate_left
  · exact .inr (.inr (.inr (hopt "applications" (by decide) h)))
  rcases List.mem_append.mp h with h | h
  rotate_left
  · exact .inr (.inr (.inr (hopt "typical_values" (by decide) h)))
  rcases List.mem_append.mp h with h | h
  rotate_left
  · exact .inr (.inr (.inr (hopt "radical_forms" (by decide) h)))
  rcases List.mem_append.mp h with h | h
  rotate_left
  · exact .inr (.inr (.inr (hopt "organisms" (by decide) h)))
  rcases List.mem_append.mp h with h | h
  rotate_left
  · exact .inr (.inr (.inr (hopt "variants" (by decide) h)))
  rcases List.mem_append.mp h with h | h
  rotate_left
  · exact .inr (.inr (.inr (hopt "synonyms" (by decide) h)))
  simp only [List.mem_cons, List.not_mem_nil, or_false] at h
  rcases h with h | h | h
  · exact .inl h
  · exact .inr (.inl h)
  · exact .inr (.inr (.inl h))

/-- C8: the term upsert always sets `name`, `definition` and `source`; it
sets an optional category-specific property exactly when the field is
present in the source record; on an existing node, properties for absent
fields (and any property outside the written set) keep their previous
values. -/
theorem term_upsert_frame (g : Graph) (cat tid : String) (td : Record)
    (hm : g.nodes.any
      (nodeMatches (get_node_type_for_category cat) "name" (.vStr tid)) = true) :
    ∃ nodes', runQuery g (term_query cat tid td) = { g with nodes := nodes' } ∧
      nodes'.length = g.nodes.length ∧
      ∀ (i : Nat) nd nd', g.nodes[i]? = some nd → nodes'[i]? = some nd' →
        (nodeMatches (get_node_type_for_category cat) "name" (.vStr tid) nd = false →
          nd' = nd) ∧
        (nodeMatches (get_node_type_for_category cat) "name" (.vStr tid) nd = true →
          rget nd'.props "name" = some (.vStr tid) ∧
          rget nd'.props "definition" = some (rgetD td "definition" (.vStr "")) ∧
          rget nd'.props "source" = some (rgetD td "source" (.vStr "")) ∧
          (∀ k, k ∈ optionalTermKeys → rget td k = none →
            rget nd'.props k = rget nd.props k) ∧
          (∀ k v, k ∈ optionalTermKeys → rget td k = some v →
            rget nd'.props k = some v) ∧
          (∀ k, k ∉ (["name", "definition", "source"] : List String) →
            k ∉ optionalTermKeys → rget nd'.props k = rget nd.props k)) := by
  refine ⟨g.nodes.map (fun nd =>
      if nodeMatches (get_node_type_for_category cat) "name" (.vStr tid) nd then
        { nd with props := rsetMany nd.props (term_props tid td) } else nd),
      ?_, ?_, ?_⟩
  · simp only [term_query, runQuery, runNodeMerge, hm, if_true]
  · simp
  · intro i nd nd' hnd hnd'
    rw [List.getElem?_map, hnd, Option.map_some'] at hnd'
    have hnd'eq := Option.some.inj hnd'
    constructor
    · intro hfalse
      rw [← hnd'eq, hfalse]
      simp
    · intro htrue
      rw [← hnd'eq, htrue, if_pos rfl]
      simp only
      have hname : ∀ e ∈ term_props tid td, e.1 = "name" → e.2 = .vStr tid := by
        intro e he h1
        rcases term_props_mem tid td e he with h | h | h | h
        · rw [h]
        · rw [h] at h1; simp at h1
        · rw [h] at h1; simp at h1
        · rw [h1] at h; exact absurd h.1 (by decide)
      have hmatched : rget nd.props "name" = some (.vStr tid) := by
        unfold nodeMatches at htrue
        simp only [Bool.and_eq_true, decide_eq_true_eq, beq_iff_eq] at htrue
        exact htrue.2
      refine ⟨?_, ?_, ?_, ?_, ?_, ?_⟩
      · exact rget_rsetMany_of_all_eq _ _ _ hname _ hmatched
      · refine rget_rsetMany_of_mem _ _ _ ?_ ?_ _
        · intro e he h1
          rcases term_props_mem tid td e he with h | h | h | h
          · rw [h] at h1; simp at h1
          · rw [h]
          · rw [h] at h1; simp at h1
          · rw [h1] at h; exact absurd h.1 (by decide)
        · exact ⟨("definition", rgetD td "definition" (.vStr "")),
            by simp [term_props], rfl⟩
      · refine rget_rsetMany_of_mem _ _ _ ?_ ?_ _
        · intro e he h1
          rcases term_props_mem tid td e he with h | h | h | h
          · rw [h] at h1; simp at h1
          · rw [h] at h1; simp at h1
          · rw [h]
          · rw [h1] at h; exact absurd h.1 (by decide)
        · exact ⟨("source", rgetD td "source" (.vStr "")),
            by simp [term_props], rfl⟩
      · intro k hk habsent
        refine rget_rsetMany_of_not_mem _ _ ?_ _
        intro e he
        rcases term_props_mem tid td e he with h | h | h | h
        · rw [h]; intro hc
          have hc2 : "name" = k := hc
          rw [← hc2] at hk; exact absurd hk (by decide)
        · rw [h]; intro hc
          have hc2 : "definition" = k := hc
          rw [← hc2] at hk; exact absurd hk (by decide)
        · rw [h]; intro hc
          have hc2 : "source" = k := hc
          rw [← hc2] at hk; exact absurd hk (by decide)
        · intro hc; rw [hc] at h; rw [habsent] at h; exact Option.noConfusion h.2
      · intro k v hk hpresent
        refine rget_rsetMany_of_mem _ _ _ ?_ ?_ _
        · intro e he h1
          rcases term_props_mem tid td e he with h | h | h | h
          · rw [h] at h1
            have hc2 : "name" = k := h1
            rw [← hc2] at hk; exact absurd hk (by decide)
          · rw [h] at h1
            have hc2 : "definition" = k := h1
            rw [← hc2] at hk; exact absurd hk (by decide)
          · rw [h] at h1
            have hc2 : "source" = k := h1
            rw [← hc2] at hk; exact absurd hk (by decide)
          · rw [h1] at h
            rw [hpresent] at h
            exact (Option.some.inj h.2).symm
        · refine ⟨(k, v), ?_, rfl⟩
          unfold term_props
          have : (k, v) ∈ optional_prop td k := by
            unfold optional_prop
            rw [hpresent]
            simp
          fin_cases hk <;> simp [this]
      · intro k hkbase hkopt
        refine rget_rsetMany_of_not_mem _ _ ?_ _
        intro e he
        rcases term_props_mem tid td e he with h | h | h | h
        · rw [h]; intro hc
          have hc2 : "name" = k := hc
          rw [← hc2] at hkbase; exact absurd (by decide) hkbase
        · rw [h]; intro hc
          have hc2 : "definition" = k := hc
          rw [← hc2] at hkbase; exact absurd (by decide) hkbase
        · rw [h]; intro hc
          have hc2 : "source" = k := hc
          rw [← hc2] at hkbase; exact absurd (by decide) hkbase
        · intro hc; rw [hc] at h; exact absurd h.1 hkopt

/-- Concrete graph for the C8 witness: one existing Mechanism node with an
old `synonyms` value and an old `definition`. -/
def termFrameG : Graph :=
  { nodes := [{ label := "Mechanism",
                props := [("name", .vStr "m1"), ("synonyms", .vList ["old"]),
                          ("definition", .vStr "olddef")] }],
    edges := [] }

/-- Concrete term record for the C8 witness: `definition` and `variants`
present, `synonyms` (and the rest) absent. -/
def termFrameTD : Record :=
  [("definition", .vStr "newdef"), ("variants", .vList ["v1"])]

/-- Witness for C8 on the concrete instance above. -/
theorem term_upsert_frame_witness :
    termFrameG.nodes.any
      (nodeMatches (get_node_type_for_category "mechanisms") "name" (.vStr "m1")) = true ∧
    (∃ nodes', runQuery termFrameG (term_query "mechanisms" "m1" termFrameTD)
        = { termFrameG with nodes := nodes' } ∧
      nodes'.length = termFrameG.nodes.length ∧
      ∀ (i : Nat) nd nd', termFrameG.nodes[i]? = some nd → nodes'[i]? = some nd' →
        (nodeMatches (get_node_type_for_category "mechanisms") "name" (.vStr "m1") nd
            = false → nd' = nd) ∧
        (nodeMatches (get_node_type_for_category "mechanisms") "name" (.vStr "m1") nd
            = true →
          rget nd'.props "name" = some (.vStr "m1") ∧
          rget nd'.props "definition" = some (rgetD termFrameTD "definition" (.vStr "")) ∧
          rget nd'.props "source" = some (rgetD termFrameTD "source" (.vStr "")) ∧
          (∀ k, k ∈ optionalTermKeys → rget termFrameTD k = none →
            rget nd'.props k = rget nd.props k) ∧
          (∀ k v, k ∈ optionalTermKeys → rget termFrameTD k = some v →
            rget nd'.props k = some v) ∧
          (∀ k, k ∉ (["name", "definition", "source"] : List String) →
            k ∉ optionalTermKeys → rget nd'.props k = rget nd.props k))) :=
  ⟨by decide, term_upsert_frame termFrameG "mechanisms" "m1" termFrameTD (by decide)⟩

/-! ## C6 -/

/-- C6 counterexample: with no criteria at all, `filter_subgraph` is NOT the
identity transform.  On a corpus whose single relationship references
subject/object ids that are not term ids of any category, the relationship
is dropped (the relationships list is still filtered against `term_ids`),
so the returned triple differs from the input. -/
theorem filter_no_criteria_not_identity :
    ¬ (filter_subgraph [] [("mechanisms", [("m1", [])])]
        { relationships := [[("subject", .vStr "x"), ("predicate", .vStr "p"),
                             ("object", .vStr "y")]],
          hierarchies := none, process_flows := none }
        none none none
      = .ok ([], [("mechanisms", [("m1", [])])],
             { relationships := [[("subject", .vStr "x"), ("predicate", .vStr "p"),
                                  ("object", .vStr "y")]],
               hierarchies := none, process_flows := none })) := by
  decide

theorem relFilterLoop_all_kept (tids : List String) (l : List Record)
    (h : ∀ r ∈ l, relKeepE tids r = .ok true) :
    relFilterLoop tids l = .ok l := by
  induction l with
  | nil => rfl
  | cons r rest ih =>
    have hr := h r (List.mem_cons_self _ _)
    simp only [relFilterLoop, hr, ih (fun r' hr' => h r' (List.mem_cons_of_mem _ hr'))]
    simp

/-- C6 as amended: with no criteria, `filter_subgraph` returns the papers and
terms unchanged, and returns the relationships (with the `hierarchies` and
`process_flows` substructures) unchanged provided every relationship passes
the subject-or-object membership test against the corpus's own term-id set;
a relationship with neither endpoint among the corpus term ids is dropped. -/
theorem filter_no_criteria_identity_on_connected (papers : List Record)
    (terms : TermsDict) (rels : RelsDict)
    (h : ∀ r ∈ rels.relationships, relKeepE (termIdsOf terms) r = .ok true) :
    filter_subgraph papers terms rels none none none = .ok (papers, terms, rels) := by
  obtain ⟨rl, hi, pf⟩ := rels
  unfold filter_subgraph
  simp only [truthyList, Bool.false_eq_true, if_false,
    relFilterLoop_all_kept (termIdsOf terms) rl h]

/-- Witness for the amended C6: a corpus whose only relationship has its
subject among the term ids is returned unchanged. -/
theorem filter_no_criteria_identity_on_connected_witness :
    (∀ r ∈ ([[("subject", Val.vStr "m1"), ("predicate", Val.vStr "p"),
              ("object", Val.vStr "x")]] : List Record),
      relKeepE (termIdsOf [("mechanisms", [("m1", [])])]) r = .ok true) ∧
    filter_subgraph [[("paper_id", .vStr "p1")]] [("mechanisms", [("m1", [])])]
      { relationships := [[("subject", .vStr "m1"), ("predicate", .vStr "p"),
                           ("object", .vStr "x")]],
        hierarchies := some (.vStr "H"), process_flows := none }
      none none none
    = .ok ([[("paper_id", .vStr "p1")]], [("mechanisms", [("m1", [])])],
           { relationships := [[("subject", .vStr "m1"), ("predicate", .vStr "p"),
                                ("object", .vStr "x")]],
             hierarchies := some (.vStr "H"), process_flows := none }) :=
  ⟨by decide,
   filter_no_criteria_identity_on_connected _ _ _ (by decide)⟩

/-! ## C7 -/

theorem relFilterLoop_eq_filter (tids : List String) (l : List Record)
    (hwf : ∀ r ∈ l, (rget r "subject").isSome ∧ (rget r "object").isSome) :
    relFilterLoop tids l = .ok (l.filter (fun r =>
      valInStrList (rgetD r "subject" .vNull) tids ||
      valInStrList (rgetD r "object" .vNull) tids)) := by
  induction l with
  | nil => rfl
  | cons r rest ih =>
    obtain ⟨hs, ho⟩ := hwf r (List.mem_cons_self _ _)
    obtain ⟨sv, hsv⟩ := Option.isSome_iff_exists.mp hs
    obtain ⟨ov, hov⟩ := Option.isSome_iff_exists.mp ho
    have hkeep : relKeepE tids r
        = .ok (valInStrList sv tids || valInStrList ov tids) := by
      unfold relKeepE
      rw [hsv]
      by_cases h1 : valInStrList sv tids = true
      · simp [h1]
      · simp [h1, hov]
    simp only [relFilterLoop, hkeep,
      ih (fun r' hr' => hwf r' (List.mem_cons_of_mem _ hr'))]
    rw [List.filter_cons]
    simp [rgetD, hsv, hov]

/-- C7: with a non-empty categories allow-list (and well-formed relationship
records), `filter_subgraph` keeps exactly the whole categories in the list,
and keeps exactly those relationships whose subject OR object lies in the
surviving term-id set — a 1-hop expansion: an edge with exactly one endpoint
in a kept category survives, an edge with no endpoint in it is dropped. -/
theorem filter_categories_one_hop (papers : List Record) (terms : TermsDict)
    (rels : RelsDict) (cs : List String) (hcs : cs ≠ [])
    (hwf : ∀ r ∈ rels.relationships,
      (rget r "subject").isSome ∧ (rget r "object").isSome) :
    filter_subgraph papers terms rels none (some cs) none
      = .ok (papers, filterCatsLoop terms [] cs,
          { relationships := rels.relationships.filter (fun r =>
              valInStrList (rgetD r "subject" .vNull)
                (termIdsOf (filterCatsLoop terms [] cs)) ||
              valInStrList (rgetD r "object" .vNull)
                (termIdsOf (filterCatsLoop terms [] cs))),
            hierarchies := rels.hierarchies,
            process_flows := rels.process_flows }) := by
  cases cs with
  | nil => exact absurd rfl hcs
  | cons c cs' =>
    unfold filter_subgraph
    simp only [truthyList, Bool.false_eq_true, if_false, List.isEmpty_cons,
      Bool.not_false, if_true, Option.getD_some,
      relFilterLoop_eq_filter _ rels.relationships hwf]

/-- Witness for C7: categories `["mechanisms"]` over a corpus with a
mechanisms term `m1` and a proteins term `q1`; the cross edge `m1 → q1` is
kept (one endpoint), the edge `q1 → q2` is dropped (no endpoint). -/
theorem filter_categories_one_hop_witness :
    (["mechanisms"] : List String) ≠ [] ∧
    filter_subgraph []
      [("mechanisms", [("m1", [])]), ("proteins", [("q1", [])])]
      { relationships := [[("subject", .vStr "m1"), ("predicate", .vStr "p"),
                           ("object", .vStr "q1")],
                          [("subject", .vStr "q1"), ("predicate", .vStr "p"),
                           ("object", .vStr "q2")]],
        hierarchies := none, process_flows := none }
      none (some ["mechanisms"]) none
    = .ok ([], filterCatsLoop [("mechanisms", [("m1", [])]), ("proteins", [("q1", [])])]
                 [] ["mechanisms"],
        { relationships := [[("subject", .vStr "m1"), ("predicate", .vStr "p"),
                             ("object", .vStr "q1")],
                            [("subject", .vStr "q1"), ("predicate", .vStr "p"),
                             ("object", .vStr "q2")]].filter (fun r =>
            valInStrList (rgetD r "subject" .vNull)
              (termIdsOf (filterCatsLoop
                [("mechanisms", [("m1", [])]), ("proteins", [("q1", [])])]
                [] ["mechanisms"])) ||
            valInStrList (rgetD r "object" .vNull)
              (termIdsOf (filterCatsLoop
                [("mechanisms", [("m1", [])]), ("proteins", [("q1", [])])]
                [] ["mechanisms"]))),
          hierarchies := none, process_flows := none }) :=
  ⟨by decide,
   filter_categories_one_hop [] _ _ ["mechanisms"] (by decide) (by decide)⟩

/-- The C7 filter characterization evaluated on the witness corpus: the
cross edge with exactly one endpoint in the kept category is retained and
the edge with no endpoint is dropped. -/
theorem filter_categories_one_hop_witness_eval :
    ([[("subject", Val.vStr "m1"), ("predicate", Val.vStr "p"),
       ("object", Val.vStr "q1")],
      [("subject", Val.vStr "q1"), ("predicate", Val.vStr "p"),
       ("object", Val.vStr "q2")]] : List Record).filter (fun r =>
        valInStrList (rgetD r "subject" .vNull)
          (termIdsOf (filterCatsLoop
            [("mechanisms", [("m1", [])]), ("proteins", [("q1", [])])]
            [] ["mechanisms"])) ||
        valInStrList (rgetD r "object" .vNull)
          (termIdsOf (filterCatsLoop
            [("mechanisms", [("m1", [])]), ("proteins", [("q1", [])])]
            [] ["mechanisms"])))
    = [[("subject", .vStr "m1"), ("predicate", .vStr "p"),
        ("object", .vStr "q1")]] := by
  decide

/-! ## Normal form of a failure-free synchronization run

Under the well-formedness conditions below no per-item failure occurs, and
each phase of the run reduces to executing (and logging) a query list that is
a pure function of the corpus. -/

/-- Every paper record carries `paper_id` (so no paper write fails). -/
def papersWF (papers : List Record) : Bool :=
  papers.all (fun p => (rget p "paper_id").isSome)

/-- Every relationship record carries `subject`, `predicate` and `object`
(so no relationship write fails). -/
def relsWF (rels : List Record) : Bool :=
  rels.all (fun r => (rget r "subject").isSome && (rget r "predicate").isSome &&
                     (rget r "object").isSome)

/-- The queries `create_paper_nodes` issues on a well-formed corpus. -/
def paperQueries (papers : List Record) : List Query :=
  papers.filterMap (fun p => (rget p "paper_id").map (fun pid => paper_query pid p))

/-- The queries `create_term_nodes` issues. -/
def termQueries (cats : TermsDict) : List Query :=
  cats.flatMap (fun e => e.2.map (fun t => term_query e.1 t.1 t.2))

/-- The queries `create_relationships` issues on a well-formed corpus. -/
def relQueries (rels : List Record) : List Query :=
  rels.filterMap (fun r =>
    match rget r "subject", rget r "predicate", rget r "object" with
    | some sv, some pv, some ov =>
      some (rel_query (relTypeOf pv) sv ov pv (rgetD r "source" (.vStr "")))
    | _, _, _ => none)

/-- Run and log a whole query list. -/
def sessionRunAll (s : Session) (qs : List Query) : Session :=
  { g := applyAll s.g qs, log := s.log ++ qs }

theorem applyAll_cons (g : Graph) (q : Query) (qs : List Query) :
    applyAll g (q :: qs) = applyAll (runQuery g q) qs := rfl

theorem applyAll_append (g : Graph) (qs1 qs2 : List Query) :
    applyAll g (qs1 ++ qs2) = applyAll (applyAll g qs1) qs2 :=
  List.foldl_append _ _ _ _

theorem sessionRunAll_nil (s : Session) : sessionRunAll s [] = s := by
  simp [sessionRunAll, applyAll]

theorem sessionRunAll_run (s : Session) (q : Query) (qs : List Query) :
    sessionRunAll (s.run q) qs = sessionRunAll s (q :: qs) := by
  simp [sessionRunAll, Session.run, applyAll_cons]

theorem sessionRunAll_append (s : Session) (qs1 qs2 : List Query) :
    sessionRunAll (sessionRunAll s qs1) qs2 = sessionRunAll s (qs1 ++ qs2) := by
  simp [sessionRunAll, applyAll_append]

theorem paperLoop_nf (papers : List Record) (hp : papersWF papers = true) :
    ∀ (s : Session) (c : Nat),
    paperLoop s c papers
      = .ok (sessionRunAll s (paperQueries papers), c + papers.length) := by
  induction papers with
  | nil =>
    intro s c
    simp [paperLoop, paperQueries, sessionRunAll_nil]
  | cons p rest ih =>
    intro s c
    rw [papersWF, List.all_cons, Bool.and_eq_true] at hp
    obtain ⟨pid, hpid⟩ := Option.isSome_iff_exists.mp hp.1
    have hq : paperQueries (p :: rest) = paper_query pid p :: paperQueries rest := by
      simp [paperQueries, hpid]
    simp only [paperLoop, hpid, ih hp.2, hq, sessionRunAll_run, List.length_cons]
    rw [show c + 1 + rest.length = c + (rest.length + 1) from by omega]

theorem create_paper_nodes_nf (s : Session) (papers : List Record)
    (hp : papersWF papers = true) :
    create_paper_nodes s papers
      = .ok (sessionRunAll s (paperQueries papers), papers.length) := by
  rw [create_paper_nodes, paperLoop_nf papers hp s 0]
  simp

/-- Total number of terms, the value `create_term_nodes` returns. -/
def termTotal (cats : TermsDict) : Nat :=
  (cats.map (fun e => e.2.length)).sum

theorem termCatLoop_nf (cat : String) (ts : List (String × Record)) :
    ∀ (s : Session) (c : Nat),
    termCatLoop cat s c ts
      = (sessionRunAll s (ts.map (fun t => term_query cat t.1 t.2)), c + ts.length) := by
  induction ts with
  | nil =>
    intro s c
    simp [termCatLoop, sessionRunAll_nil]
  | cons t rest ih =>
    intro s c
    obtain ⟨tid, td⟩ := t
    simp only [termCatLoop, ih, List.map_cons, sessionRunAll_run, List.length_cons]
    rw [show c + 1 + rest.length = c + (rest.length + 1) from by omega]

theorem termsLoop_nf (cats : TermsDict) :
    ∀ (s : Session) (total : Nat),
    termsLoop s total cats
      = (sessionRunAll s (termQueries cats), total + termTotal cats) := by
  induction cats with
  | nil =>
    intro s total
    simp [termsLoop, termQueries, termTotal, sessionRunAll_nil]
  | cons e rest ih =>
    intro s total
    obtain ⟨cat, ts⟩ := e
    simp only [termsLoop, termCatLoop_nf, ih, sessionRunAll_append]
    have hq : termQueries ((cat, ts) :: rest)
        = (ts.map (fun t => term_query cat t.1 t.2)) ++ termQueries rest := by
      simp [termQueries]
    rw [← hq]
    have ht : termTotal ((cat, ts) :: rest) = ts.length + termTotal rest := by
      simp [termTotal]
    rw [ht]
    rw [show total + (0 + ts.length) + termTotal rest
          = total + (ts.length + termTotal rest) from by omega]

theorem create_term_nodes_nf (s : Session) (cats : TermsDict) :
    create_term_nodes s cats = (sessionRunAll s (termQueries cats), termTotal cats) := by
  rw [create_term_nodes, termsLoop_nf cats s 0]
  simp

theorem relLoop_nf (rels : List Record) (hr : relsWF rels = true) :
    ∀ st : RelLoopState, ∃ sv pv ov,
    relLoop st rels = .ok { s := sessionRunAll st.s (relQueries rels),
                            created := st.created + rels.length,
                            failed := st.failed,
                            subjVar := sv, predVar := pv, objVar := ov } := by
  induction rels with
  | nil =>
    intro st
    refine ⟨st.subjVar, st.predVar, st.objVar, ?_⟩
    simp [relLoop, relQueries, sessionRunAll_nil]
  | cons r rest ih =>
    intro st
    rw [relsWF, List.all_cons, Bool.and_eq_true] at hr
    obtain ⟨hr1, hrest⟩ := hr
    rw [Bool.and_eq_true, Bool.and_eq_true] at hr1
    obtain ⟨⟨hs, hp⟩, ho⟩ := hr1
    obtain ⟨sv0, hsv⟩ := Option.isSome_iff_exists.mp hs
    obtain ⟨pv0, hpv⟩ := Option.isSome_iff_exists.mp hp
    obtain ⟨ov0, hov⟩ := Option.isSome_iff_exists.mp ho
    have hstep : relStep st r = .ok { st with
        s := st.s.run (rel_query (relTypeOf pv0) sv0 ov0 pv0 (rgetD r "source" (.vStr ""))),
        created := st.created + 1,
        subjVar := some sv0, predVar := some pv0, objVar := some ov0 } := by
      simp only [relStep, hsv, hpv, hov]
    have hq : relQueries (r :: rest)
        = rel_query (relTypeOf pv0) sv0 ov0 pv0 (rgetD r "source" (.vStr ""))
            :: relQueries rest := by
      simp [relQueries, hsv, hpv, hov]
    obtain ⟨sv, pv, ov, hloop⟩ := ih hrest { st with
        s := st.s.run (rel_query (relTypeOf pv0) sv0 ov0 pv0 (rgetD r "source" (.vStr ""))),
        created := st.created + 1,
        subjVar := some sv0, predVar := some pv0, objVar := some ov0 }
    refine ⟨sv, pv, ov, ?_⟩
    simp only [relLoop, hstep, hloop, hq, sessionRunAll_run, List.length_cons]
    rw [show st.created + 1 + rest.length = st.created + (rest.length + 1) from by omega]

theorem create_relationships_nf (s : Session) (rels : List Record)
    (hr : relsWF rels = true) :
    create_relationships s rels
      = .ok (sessionRunAll s (relQueries rels), rels.length, 0) := by
  obtain ⟨sv, pv, ov, h⟩ := relLoop_nf rels hr
    { s := s, created := 0, failed := 0,
      subjVar := none, predVar := none, objVar := none }
  rw [create_relationships, h]
  simp

/-- All queries a failure-free run issues, in order. -/
def corpusQueries (papers : List Record) (terms : TermsDict) (rels : RelsDict) :
    List Query :=
  paperQueries papers ++ termQueries terms ++ relQueries rels.relationships

theorem sync_corpus_nf (papers : List Record) (terms : TermsDict) (rels : RelsDict)
    (g : Graph) (hp : papersWF papers = true) (hr : relsWF rels.relationships = true) :
    sync_corpus papers terms rels g
      = .ok { g := applyAll g (corpusQueries papers terms rels),
              log := corpusQueries papers terms rels } := by
  have hcp : ∀ s : Session, create_paper_nodes s papers
      = .ok (sessionRunAll s (paperQueries papers), papers.length) :=
    fun s => create_paper_nodes_nf s papers hp
  have hcr : ∀ s : Session, create_relationships s rels.relationships
      = .ok (sessionRunAll s (relQueries rels.relationships),
             rels.relationships.length, 0) :=
    fun s => create_relationships_nf s rels.relationships hr
  simp only [sync_corpus, hcp, create_term_nodes_nf, hcr, sessionRunAll_append]
  simp [sessionRunAll, corpusQueries]

/-! ## Counting write attempts (C2) -/

/-- Is this query a node write with label `t`? -/
def isNodeWriteFor (t : String) : Query → Bool
  | .nodeMerge l _ _ _ => l == t
  | .edgeMerge _ _ _ _ => false

/-- Is this query a relationship write of type `rt`? -/
def isRelWriteFor (rt : String) : Query → Bool
  | .nodeMerge _ _ _ _ => false
  | .edgeMerge r _ _ _ => r == rt

/-- Number of node writes with label `t` among the issued queries. -/
def countNodeWrites (qs : List Query) (t : String) : Nat :=
  qs.countP (isNodeWriteFor t)

/-- Number of relationship writes of type `rt` among the issued queries. -/
def countRelWrites (qs : List Query) (rt : String) : Nat :=
  qs.countP (isRelWriteFor rt)

/-- Terms contributed to node type `t` by the category map. -/
def termCountFor (cats : TermsDict) (t : String) : Nat :=
  (cats.map (fun e => if get_node_type_for_category e.1 = t then e.2.length else 0)).sum

/-- Relationships resolving to type `rt`. -/
def relTypeCountFor (rels : List Record) (rt : String) : Nat :=
  rels.countP (fun r => match rget r "predicate" with
    | some pv => relTypeOf pv == rt
    | none => false)

theorem countP_const {α : Type} (b : Bool) (l : List α) :
    l.countP (fun _ => b) = if b then l.length else 0 := by
  induction l with
  | nil => cases b <;> simp
  | cons x l ih => cases b <;> simp [List.countP_cons, ih]

theorem countNodeWrites_paperQueries (papers : List Record)
    (hp : papersWF papers = true) (t : String) :
    countNodeWrites (paperQueries papers) t
      = if "Paper" = t then papers.length else 0 := by
  induction papers with
  | nil => simp [paperQueries, countNodeWrites]
  | cons p rest ih =>
    rw [papersWF, List.all_cons, Bool.and_eq_true] at hp
    obtain ⟨pid, hpid⟩ := Option.isSome_iff_exists.mp hp.1
    have hq : paperQueries (p :: rest) = paper_query pid p :: paperQueries rest := by
      simp [paperQueries, hpid]
    rw [hq, countNodeWrites, List.countP_cons, ← countNodeWrites, ih hp.2]
    by_cases h : "Paper" = t <;>
      simp [paper_query, isNodeWriteFor, h, List.length_cons]

theorem countNodeWrites_termQueries (cats : TermsDict) (t : String) :
    countNodeWrites (termQueries cats) t = termCountFor cats t := by
  induction cats with
  | nil => simp [termQueries, countNodeWrites, termCountFor]
  | cons e rest ih =>
    obtain ⟨cat, ts⟩ := e
    have hq : termQueries ((cat, ts) :: rest)
        = ts.map (fun t' => term_query cat t'.1 t'.2) ++ termQueries rest := by
      simp [termQueries]
    rw [hq, countNodeWrites, List.countP_append, ← countNodeWrites, ← countNodeWrites,
      ih, countNodeWrites, List.countP_map]
    have hcongr : (ts.countP ((isNodeWriteFor t) ∘ (fun t' => term_query cat t'.1 t'.2)))
        = ts.countP (fun _ => (get_node_type_for_category cat == t)) :=
      List.countP_congr (fun x _ => Iff.rfl)
    rw [hcongr, countP_const]
    by_cases h : get_node_type_for_category cat = t <;>
      simp [termCountFor, h]

theorem relQueries_mem (rels : List Record) (q : Query) (hq : q ∈ relQueries rels) :
    ∃ rt sv ov u, q = .edgeMerge rt sv ov u := by
  simp only [relQueries, List.mem_filterMap] at hq
  obtain ⟨r, _, hq⟩ := hq
  cases hs : rget r "subject" <;> rw [hs] at hq
  · simp at hq
  · cases hp : rget r "predicate" <;> rw [hp] at hq
    · simp at hq
    · cases ho : rget r "object" <;> rw [ho] at hq
      · simp at hq
      · simp only [Option.some.injEq] at hq
        exact ⟨_, _, _, _, hq.symm⟩

theorem paperQueries_mem (papers : List Record) (q : Query)
    (hq : q ∈ paperQueries papers) : ∃ pid p, q = paper_query pid p := by
  simp only [paperQueries, List.mem_filterMap] at hq
  obtain ⟨p, _, hq⟩ := hq
  cases hs : rget p "paper_id" <;> rw [hs] at hq
  · simp at hq
  · simp only [Option.map_some', Option.some.injEq] at hq
    exact ⟨_, _, hq.symm⟩

theorem termQueries_mem (cats : TermsDict) (q : Query) (hq : q ∈ termQueries cats) :
    ∃ cat tid td, q = term_query cat tid td := by
  simp only [termQueries, List.mem_flatMap, List.mem_map] at hq
  obtain ⟨e, _, t, _, hq⟩ := hq
  exact ⟨_, _, _, hq.symm⟩

theorem countNodeWrites_relQueries (rels : List Record) (t : String) :
    countNodeWrites (relQueries rels) t = 0 := by
  rw [countNodeWrites, List.countP_eq_zero]
  intro q hq
  obtain ⟨rt, sv, ov, u, rfl⟩ := relQueries_mem rels q hq
  simp [isNodeWriteFor]

theorem countRelWrites_paperQueries (papers : List Record) (rt : String) :
    countRelWrites (paperQueries papers) rt = 0 := by
  rw [countRelWrites, List.countP_eq_zero]
  intro q hq
  obtain ⟨pid, p, rfl⟩ := paperQueries_mem papers q hq
  simp [isRelWriteFor, paper_query]

theorem countRelWrites_termQueries (cats : TermsDict) (rt : String) :
    countRelWrites (termQueries cats) rt = 0 := by
  rw [countRelWrites, List.countP_eq_zero]
  intro q hq
  obtain ⟨cat, tid, td, rfl⟩ := termQueries_mem cats q hq
  simp [isRelWriteFor, term_query]

theorem countRelWrites_relQueries (rels : List Record) (hr : relsWF rels = true)
    (rt : String) :
    countRelWrites (relQueries rels) rt = relTypeCountFor rels rt := by
  induction rels with
  | nil => simp [relQueries, countRelWrites, relTypeCountFor]
  | cons r rest ih =>
    rw [relsWF, List.all_cons, Bool.and_eq_true] at hr
    obtain ⟨hr1, hrest⟩ := hr
    rw [Bool.and_eq_true, Bool.and_eq_true] at hr1
    obtain ⟨⟨hs, hp⟩, ho⟩ := hr1
    obtain ⟨sv, hsv⟩ := Option.isSome_iff_exists.mp hs
    obtain ⟨pv, hpv⟩ := Option.isSome_iff_exists.mp hp
    obtain ⟨ov, hov⟩ := Option.isSome_iff_exists.mp ho
    have hq : relQueries (r :: rest)
        = rel_query (relTypeOf pv) sv ov pv (rgetD r "source" (.vStr ""))
            :: relQueries rest := by
      simp [relQueries, hsv, hpv, hov]
    rw [hq, countRelWrites, List.countP_cons, ← countRelWrites, ih hrest]
    have hcons : relTypeCountFor (r :: rest) rt
        = relTypeCountFor rest rt + if (relTypeOf pv == rt) then 1 else 0 := by
      rw [relTypeCountFor, List.countP_cons, ← relTypeCountFor, hpv]
    rw [hcons]
    rfl

/-! ## Preview count lemmas (C2) -/

theorem cmGet_cmSet (m : CountMap) (k : String) (n : Nat) (k' : String) :
    cmGet (cmSet m k n) k' = if k = k' then n else cmGet m k' := by
  induction m with
  | nil => simp [cmSet, cmGet]
  | cons e rest ih =>
    by_cases h : e.1 = k
    · by_cases h2 : k = k'
      · simp [cmSet, cmGet, h, h2]
      · have h3 : ¬ e.1 = k' := by rw [h]; exact h2
        simp [cmSet, cmGet, h, h2, h3]
    · by_cases h2 : e.1 = k'
      · have h3 : ¬ k = k' := by rw [← h2]; exact fun hc => h hc.symm
        have h4 : ¬ k' = k := fun hc => h3 hc.symm
        simp [cmSet, cmGet, h, h2, h3, h4]
      · simp [cmSet, cmGet, h, h2, ih]

theorem cmGet_cmAdd (m : CountMap) (k : String) (n : Nat) (k' : String) :
    cmGet (cmAdd m k n) k' = cmGet m k' + if k = k' then n else 0 := by
  rw [cmAdd, cmGet_cmSet]
  by_cases h : k = k'
  · subst h; simp
  · simp [h]

theorem previewNodeCountsLoop_get (cats : TermsDict) :
    ∀ (acc : CountMap) (t : String),
    cmGet (previewNodeCountsLoop acc cats) t = cmGet acc t + termCountFor cats t := by
  induction cats with
  | nil =>
    intro acc t
    simp [previewNodeCountsLoop, termCountFor]
  | cons e rest ih =>
    intro acc t
    obtain ⟨cat, ts⟩ := e
    simp only [previewNodeCountsLoop]
    rw [ih, cmGet_cmAdd]
    by_cases h : get_node_type_for_category cat = t <;>
      simp [termCountFor, h] <;> omega

theorem previewRelCountsLoop_nf (rels : List Record) (hr : relsWF rels = true) :
    ∀ acc : CountMap, ∃ m, previewRelCountsLoop acc rels = .ok m ∧
      ∀ rt, cmGet m rt = cmGet acc rt + relTypeCountFor rels rt := by
  induction rels with
  | nil =>
    intro acc
    exact ⟨acc, rfl, by simp [relTypeCountFor]⟩
  | cons r rest ih =>
    intro acc
    rw [relsWF, List.all_cons, Bool.and_eq_true] at hr
    obtain ⟨hr1, hrest⟩ := hr
    rw [Bool.and_eq_true, Bool.and_eq_true] at hr1
    obtain ⟨pv, hpv⟩ := Option.isSome_iff_exists.mp hr1.1.2
    obtain ⟨m, hm, hget⟩ := ih hrest (cmAdd acc (relTypeOf pv) 1)
    refine ⟨m, ?_, fun rt => ?_⟩
    · simp only [previewRelCountsLoop, hpv, hm]
    · rw [hget, cmGet_cmAdd]
      have hcons : relTypeCountFor (r :: rest) rt
          = relTypeCountFor rest rt + if (relTypeOf pv == rt) then 1 else 0 := by
        rw [relTypeCountFor, List.countP_cons, ← relTypeCountFor, hpv]
      rw [hcons]
      by_cases h : relTypeOf pv = rt
      · simp only [h, if_pos rfl, beq_self_eq_true, if_true]
        omega
      · have h2 : (relTypeOf pv == rt) = false := by simp [h]
        rw [h2, if_neg h]
        simp only [Bool.false_eq_true, if_false]
        omega

theorem previewListCheck_ok_of (l : List Record)
    (h : ∀ p ∈ l, (rget p "paper_id").isSome) :
    previewListCheck l = .ok () := by
  induction l with
  | nil => rfl
  | cons p rest ih =>
    obtain ⟨pid, hpid⟩ := Option.isSome_iff_exists.mp (h p (List.mem_cons_self _ _))
    simp only [previewListCheck, hpid]
    exact ih (fun p' hp' => h p' (List.mem_cons_of_mem _ hp'))

theorem preview_export_nf (papers : List Record) (terms : TermsDict) (rels : RelsDict)
    (hp : papersWF papers = true) (hr : relsWF rels.relationships = true) :
    ∃ nc rc, preview_export papers terms rels = .ok (nc, rc) ∧
      (∀ t, cmGet nc t
        = (if "Paper" = t then papers.length else 0) + termCountFor terms t) ∧
      (∀ rt, cmGet rc rt = relTypeCountFor rels.relationships rt) := by
  obtain ⟨m, hm, hget⟩ := previewRelCountsLoop_nf rels.relationships hr []
  have hlist : previewListCheck (papers.take 10) = .ok () := by
    refine previewListCheck_ok_of _ (fun p hp10 => ?_)
    rw [papersWF, List.all_eq_true] at hp
    exact hp p (List.take_subset 10 papers hp10)
  refine ⟨previewNodeCountsLoop [("Paper", papers.length)] terms, m, ?_, ?_, ?_⟩
  · simp only [preview_export, hm, hlist]
  · intro t
    rw [previewNodeCountsLoop_get]
    by_cases h : "Paper" = t
    · rw [← h]; simp [cmGet]
    · have h2 : ¬ ("Paper" : String) = t := h
      simp [cmGet, h2, h]
  · intro rt
    rw [hget rt]
    simp [cmGet, relTypeCountFor]

/-! ## C2 -/

/-- C2: given a corpus with well-formed paper and relationship records (so a
synchronization run has zero per-item failures), the per-NodeType and
per-RelationshipType counts computed by `preview_export` are exactly the
numbers of node writes per label and relationship writes per type that a
`sync_corpus` run on the same corpus issues (counted on the executed query
log). -/
theorem preview_matches_sync_attempts (papers : List Record) (terms : TermsDict)
    (rels : RelsDict) (g : Graph)
    (hp : papersWF papers = true) (hr : relsWF rels.relationships = true) :
    ∃ nc rc sess,
      preview_export papers terms rels = .ok (nc, rc) ∧
      sync_corpus papers terms rels g = .ok sess ∧
      (∀ t, cmGet nc t = countNodeWrites sess.log t) ∧
      (∀ rt, cmGet rc rt = countRelWrites sess.log rt) := by
  obtain ⟨nc, rc, hpre, hnt, hrt⟩ := preview_export_nf papers terms rels hp hr
  refine ⟨nc, rc, _, hpre, sync_corpus_nf papers terms rels g hp hr, ?_, ?_⟩
  · intro t
    rw [hnt t]
    show _ = countNodeWrites (corpusQueries papers terms rels) t
    rw [corpusQueries, countNodeWrites, List.countP_append, List.countP_append]
    rw [← countNodeWrites, ← countNodeWrites, ← countNodeWrites,
      countNodeWrites_paperQueries papers hp t, countNodeWrites_termQueries,
      countNodeWrites_relQueries]
    omega
  · intro rt
    rw [hrt rt]
    show _ = countRelWrites (corpusQueries papers terms rels) rt
    rw [corpusQueries, countRelWrites, List.countP_append, List.countP_append]
    rw [← countRelWrites, ← countRelWrites, ← countRelWrites,
      countRelWrites_paperQueries, countRelWrites_termQueries,
      countRelWrites_relQueries rels.relationships hr rt]
    simp

/-! ## Idempotence of synchronization (C1)

A re-run of the same corpus issues the same query list.  We show every node
merge of the second run finds a match (so it only updates, preserving node
count, labels and key properties) and every relationship merge of the second
run finds existing edges for all of its rows (so it only updates, preserving
the edge count). -/

/-- The data a merge pattern can observe about a node: label, `name` property
and `paper_id` property. -/
def sig (nd : GNode) : String × Option Val × Option Val :=
  (nd.label, rget nd.props "name", rget nd.props "paper_id")

/-- Key of an edge as seen by the relationship merge pattern. -/
def ekey (e : GEdge) : Nat × Nat × String :=
  (e.src, e.dst, e.relType)

/-- `updKeeps u tk k v`: the `SET` list `u` can only write the property `tk`
when the merge key `k` is `tk` itself, and then only with the matched value
`v` (so applying `u` to a matching node never changes its `tk` property). -/
def updKeeps (u : Record) (tk k : String) (v : Val) : Prop :=
  ∀ e ∈ u, e.1 = tk → (k = tk ∧ e.2 = v)

/-- The invariant satisfied by every node merge the exporter issues: the key
is `paper_id` or `name`, and the updates never disturb either key property
of a matching node. -/
def nodeQueryOK : Query → Prop
  | .nodeMerge _ k v u =>
    (k = "paper_id" ∨ k = "name") ∧ updKeeps u "name" k v ∧ updKeeps u "paper_id" k v
  | .edgeMerge _ _ _ _ => False

def edgeQueryOK : Query → Prop
  | .nodeMerge _ _ _ _ => False
  | .edgeMerge _ _ _ _ => True

/-- A node merge's pattern has a match in the graph (trivial for edges). -/
def estabNode (q : Query) (g : Graph) : Prop :=
  match q with
  | .nodeMerge l k v _ => g.nodes.any (nodeMatches l k v) = true
  | .edgeMerge _ _ _ _ => True

def edgeExists (i j : Nat) (rt : String) (es : List GEdge) : Prop :=
  es.any (edgeKeyMatches i j rt) = true

/-- Every row of an edge merge already has its edge (trivial for nodes). -/
def estabEdge (q : Query) (g : Graph) : Prop :=
  match q with
  | .nodeMerge _ _ _ _ => True
  | .edgeMerge rt s o _ => ∀ p ∈ listProd (nameMatchIdx g s) (nameMatchIdx g o),
      edgeExists p.1 p.2 rt g.edges

theorem nodeMatches_iff (l k : String) (v : Val) (nd : GNode) :
    nodeMatches l k v nd = true ↔ (nd.label = l ∧ rget nd.props k = some v) := by
  simp [nodeMatches]

theorem runQuery_nodeMerge (g : Graph) (l k : String) (v : Val) (u : Record) :
    runQuery g (.nodeMerge l k v u) = runNodeMerge g l k v u := rfl

theorem runQuery_edge_nodes (g : Graph) (rt : String) (s o : Val) (u : Record) :
    (runQuery g (.edgeMerge rt s o u)).nodes = g.nodes := rfl

/-- A matched node merge with key-preserving updates leaves every node's
signature unchanged and does not touch edges. -/
theorem sig_map_nodeMerge (g : Graph) (l k : String) (v : Val) (u : Record)
    (hm : g.nodes.any (nodeMatches l k v) = true)
    (hname : updKeeps u "name" k v) (hpid : updKeeps u "paper_id" k v) :
    (runQuery g (.nodeMerge l k v u)).nodes.map sig = g.nodes.map sig ∧
    (runQuery g (.nodeMerge l k v u)).edges = g.edges := by
  rw [runQuery_nodeMerge]
  unfold runNodeMerge
  simp only [hm, if_true]
  refine ⟨?_, by trivial⟩
  rw [List.map_map]
  apply List.map_congr_left
  intro nd _
  show sig (if nodeMatches l k v nd then { nd with props := rsetMany nd.props u } else nd)
      = sig nd
  by_cases h : nodeMatches l k v nd = true
  · obtain ⟨hl, hkv⟩ := (nodeMatches_iff _ _ _ _).mp h
    simp only [h, if_true]
    unfold sig
    rw [rget_rsetMany_keeps u "name" k v hname nd.props hkv,
        rget_rsetMany_keeps u "paper_id" k v hpid nd.props hkv]
  · simp [h]

/-- After running a well-behaved node merge, its pattern has a match. -/
theorem estabNode_self (g : Graph) (q : Query) (hok : nodeQueryOK q) :
    estabNode q (runQuery g q) := by
  cases q with
  | edgeMerge rt s o u => exact hok.elim
  | nodeMerge l k v u =>
    obtain ⟨hk, hname, hpid⟩ := hok
    have hkk : updKeeps u k k v := by
      rcases hk with h | h <;> (subst h; assumption)
    rw [estabNode, runQuery_nodeMerge]
    unfold runNodeMerge
    by_cases hm : g.nodes.any (nodeMatches l k v) = true
    · simp only [hm, if_true]
      obtain ⟨nd, hnd, hmatch⟩ := List.any_eq_true.mp hm
      apply List.any_eq_true.mpr
      refine ⟨_, List.mem_map_of_mem _ hnd, ?_⟩
      obtain ⟨hl, hkv⟩ := (nodeMatches_iff _ _ _ _).mp hmatch
      simp only [hmatch, if_true]
      apply (nodeMatches_iff _ _ _ _).mpr
      exact ⟨hl, by rw [rget_rsetMany_keeps u k k v hkk nd.props hkv]; exact hkv⟩
    · simp only [hm, if_false]
      apply List.any_eq_true.mpr
      refine ⟨_, List.mem_append_right _ (List.mem_singleton_self _), ?_⟩
      apply (nodeMatches_iff _ _ _ _).mpr
      refine ⟨rfl, ?_⟩
      have hbase : rget [(k, v)] k = some v := by simp [rget]
      rw [rget_rsetMany_keeps u k k v hkk [(k, v)] hbase]
      exact hbase

/-- A match for one node merge survives any other well-behaved node merge. -/
theorem estabNode_pres_node (g : Graph) (q : Query) (hq : estabNode q g)
    (hkq : nodeQueryOK q) (l' k' : String) (v' : Val) (u' : Record)
    (hname' : updKeeps u' "name" k' v') (hpid' : updKeeps u' "paper_id" k' v') :
    estabNode q (runQuery g (.nodeMerge l' k' v' u')) := by
  cases q with
  | edgeMerge rt s o u => trivial
  | nodeMerge l k v u =>
    obtain ⟨hk, _, _⟩ := hkq
    have hkk : updKeeps u' k k' v' := by
      rcases hk with h | h <;> (subst h; assumption)
    rw [estabNode] at hq ⊢
    rw [runQuery_nodeMerge]
    unfold runNodeMerge
    by_cases hm : g.nodes.any (nodeMatches l' k' v') = true
    · simp only [hm, if_true]
      obtain ⟨nd, hnd, hmatch⟩ := List.any_eq_true.mp hq
      apply List.any_eq_true.mpr
      refine ⟨_, List.mem_map_of_mem _ hnd, ?_⟩
      by_cases h' : nodeMatches l' k' v' nd = true
      · obtain ⟨hl, hkv⟩ := (nodeMatches_iff _ _ _ _).mp hmatch
        obtain ⟨_, hk'v⟩ := (nodeMatches_iff _ _ _ _).mp h'
        simp only [h', if_true]
        apply (nodeMatches_iff _ _ _ _).mpr
        exact ⟨hl, by rw [rget_rsetMany_keeps u' k k' v' hkk nd.props hk'v]; exact hkv⟩
      · simp only [h', if_false]
        exact hmatch
    · simp only [hm, if_false]
      obtain ⟨nd, hnd, hmatch⟩ := List.any_eq_true.mp hq
      apply List.any_eq_true.mpr
      exact ⟨nd, List.mem_append_left _ hnd, hmatch⟩

theorem edgeKeyMatches_iff (i j : Nat) (rt : String) (e : GEdge) :
    edgeKeyMatches i j rt e = true ↔ (e.src = i ∧ e.dst = j ∧ e.relType = rt) := by
  simp [edgeKeyMatches, and_assoc]

/-- One edge-merge row preserves existence of any edge key. -/
theorem edgeExists_mergeEdgeStep (i j : Nat) (rt : String) (rt' : String)
    (u' : Record) (es : List GEdge) (p' : Nat × Nat)
    (h : edgeExists i j rt es) : edgeExists i j rt (mergeEdgeStep rt' u' es p') := by
  unfold edgeExists at h ⊢
  unfold mergeEdgeStep
  by_cases hm : es.any (edgeKeyMatches p'.1 p'.2 rt') = true
  · simp only [hm, if_true]
    obtain ⟨e, he, hmatch⟩ := List.any_eq_true.mp h
    apply List.any_eq_true.mpr
    refine ⟨_, List.mem_map_of_mem _ he, ?_⟩
    obtain ⟨h1, h2, h3⟩ := (edgeKeyMatches_iff _ _ _ _).mp hmatch
    by_cases h' : edgeKeyMatches p'.1 p'.2 rt' e = true
    · simp only [h', if_true]
      exact (edgeKeyMatches_iff _ _ _ _).mpr ⟨h1, h2, h3⟩
    · simp only [h', if_false]
      exact hmatch
  · simp only [hm, if_false]
    obtain ⟨e, he, hmatch⟩ := List.any_eq_true.mp h
    exact List.any_eq_true.mpr ⟨e, List.mem_append_left _ he, hmatch⟩

theorem edgeExists_foldl (rt' : String) (u' : Record) (ps : List (Nat × Nat)) :
    ∀ es : List GEdge, ∀ i j rt, edgeExists i j rt es →
    edgeExists i j rt (ps.foldl (mergeEdgeStep rt' u') es) := by
  induction ps with
  | nil => intro es i j rt h; exact h
  | cons p rest ih =>
    intro es i j rt h
    exact ih _ _ _ _ (edgeExists_mergeEdgeStep i j rt rt' u' es p h)

/-- After folding the rows, every row's edge exists. -/
theorem foldl_establishes (rt : String) (u : Record) (ps : List (Nat × Nat)) :
    ∀ es : List GEdge, ∀ p ∈ ps, edgeExists p.1 p.2 rt (ps.foldl (mergeEdgeStep rt u) es) := by
  induction ps with
  | nil => intro es p hp; simp at hp
  | cons p0 rest ih =>
    intro es p hp
    rcases List.mem_cons.mp hp with h | h
    · subst h
      rw [List.foldl_cons]
      apply edgeExists_foldl
      unfold edgeExists mergeEdgeStep
      by_cases hm : es.any (edgeKeyMatches p.1 p.2 rt) = true
      · simp only [hm, if_true]
        obtain ⟨e, he, hmatch⟩ := List.any_eq_true.mp hm
        apply List.any_eq_true.mpr
        refine ⟨_, List.mem_map_of_mem _ he, ?_⟩
        obtain ⟨h1, h2, h3⟩ := (edgeKeyMatches_iff _ _ _ _).mp hmatch
        simp only [hmatch, if_true]
        exact (edgeKeyMatches_iff _ _ _ _).mpr ⟨h1, h2, h3⟩
      · simp only [hm, if_false]
        apply List.any_eq_true.mpr
        refine ⟨_, List.mem_append_right _ (List.mem_singleton_self _), ?_⟩
        exact (edgeKeyMatches_iff _ _ _ _).mpr ⟨rfl, rfl, rfl⟩
    · rw [List.foldl_cons]
      exact ih _ p h

/-- `nameMatchIdx` only depends on the node list. -/
theorem nameMatchIdx_nodes_eq (g h : Graph) (hn : h.nodes = g.nodes) (v : Val) :
    nameMatchIdx h v = nameMatchIdx g v := by
  unfold nameMatchIdx
  rw [hn]

/-- An edge merge establishes its own row edges. -/
theorem estabEdge_self (g : Graph) (rt : String) (s o : Val) (u : Record) :
    estabEdge (.edgeMerge rt s o u) (runQuery g (.edgeMerge rt s o u)) := by
  rw [estabEdge]
  intro p hp
  rw [nameMatchIdx_nodes_eq g (runQuery g (.edgeMerge rt s o u))
        (runQuery_edge_nodes g rt s o u) s,
      nameMatchIdx_nodes_eq g (runQuery g (.edgeMerge rt s o u))
        (runQuery_edge_nodes g rt s o u) o] at hp
  exact foldl_establishes rt u _ g.edges p hp

/-- Row edges of one merge survive another edge merge. -/
theorem estabEdge_pres_edge (g : Graph) (q : Query) (hq : estabEdge q g)
    (rt' : String) (s' o' : Val) (u' : Record) :
    estabEdge q (runQuery g (.edgeMerge rt' s' o' u')) := by
  cases q with
  | nodeMerge l k v u => trivial
  | edgeMerge rt s o u =>
    rw [estabEdge] at hq ⊢
    intro p hp
    rw [nameMatchIdx_nodes_eq g (runQuery g (.edgeMerge rt' s' o' u'))
          (runQuery_edge_nodes g rt' s' o' u') s,
        nameMatchIdx_nodes_eq g (runQuery g (.edgeMerge rt' s' o' u'))
          (runQuery_edge_nodes g rt' s' o' u') o] at hp
    exact edgeExists_foldl rt' u' _ g.edges _ _ _ (hq p hp)

/-- Node matches survive an edge merge (nodes untouched). -/
theorem estabNode_nodes_eq (q : Query) (g h : Graph) (hn : h.nodes = g.nodes)
    (hq : estabNode q g) : estabNode q h := by
  cases q with
  | nodeMerge l k v u => rw [estabNode] at hq ⊢; rw [hn]; exact hq
  | edgeMerge rt s o u => trivial

theorem estabNode_pres_list (q : Query) (hkq : nodeQueryOK q) (qs : List Query)
    (hok : ∀ q' ∈ qs, nodeQueryOK q') :
    ∀ g, estabNode q g → estabNode q (applyAll g qs) := by
  induction qs with
  | nil => intro g h; exact h
  | cons q' rest ih =>
    intro g h
    rw [applyAll_cons]
    apply ih (fun x hx => hok x (List.mem_cons_of_mem _ hx))
    have hq' := hok q' (List.mem_cons_self _ _)
    cases q' with
    | edgeMerge rt s o u => exact hq'.elim
    | nodeMerge l' k' v' u' =>
      exact estabNode_pres_node g q h hkq l' k' v' u' hq'.2.1 hq'.2.2

theorem run1_estabNode (nq : List Query) (hok : ∀ q ∈ nq, nodeQueryOK q) :
    ∀ g, ∀ q ∈ nq, estabNode q (applyAll g nq) := by
  induction nq with
  | nil => intro g q hq; simp at hq
  | cons q0 rest ih =>
    intro g q hq
    rw [applyAll_cons]
    rcases List.mem_cons.mp hq with h | h
    · subst h
      exact estabNode_pres_list q (hok q (List.mem_cons_self _ _)) rest
        (fun x hx => hok x (List.mem_cons_of_mem _ hx)) _
        (estabNode_self g q (hok q (List.mem_cons_self _ _)))
    · exact ih (fun x hx => hok x (List.mem_cons_of_mem _ hx)) _ q h

theorem edge_phase_nodes (eqs : List Query) (hok : ∀ q ∈ eqs, edgeQueryOK q) :
    ∀ g, (applyAll g eqs).nodes = g.nodes := by
  induction eqs with
  | nil => intro g; rfl
  | cons q rest ih =>
    intro g
    rw [applyAll_cons]
    cases q with
    | nodeMerge l k v u => exact ((hok _ (List.mem_cons_self _ _)).elim)
    | edgeMerge rt s o u =>
      rw [ih (fun x hx => hok x (List.mem_cons_of_mem _ hx))]
      exact runQuery_edge_nodes g rt s o u

theorem estabEdge_pres_list (q : Query) (qs : List Query)
    (hok : ∀ q' ∈ qs, edgeQueryOK q') :
    ∀ g, estabEdge q g → estabEdge q (applyAll g qs) := by
  induction qs with
  | nil => intro g h; exact h
  | cons q' rest ih =>
    intro g h
    rw [applyAll_cons]
    apply ih (fun x hx => hok x (List.mem_cons_of_mem _ hx))
    cases q' with
    | nodeMerge l k v u => exact ((hok _ (List.mem_cons_self _ _)).elim)
    | edgeMerge rt' s' o' u' => exact estabEdge_pres_edge g q h rt' s' o' u'

theorem run1_estabEdge (eqs : List Query) (hok : ∀ q ∈ eqs, edgeQueryOK q) :
    ∀ g, ∀ q ∈ eqs, estabEdge q (applyAll g eqs) := by
  induction eqs with
  | nil => intro g q hq; simp at hq
  | cons q0 rest ih =>
    intro g q hq
    rw [applyAll_cons]
    rcases List.mem_cons.mp hq with h | h
    · subst h
      cases q with
      | nodeMerge l k v u => exact ((hok _ (List.mem_cons_self _ _)).elim)
      | edgeMerge rt s o u =>
        exact estabEdge_pres_list _ rest (fun x hx => hok x (List.mem_cons_of_mem _ hx)) _
          (estabEdge_self g rt s o u)
    · exact ih (fun x hx => hok x (List.mem_cons_of_mem _ hx)) _ q h

theorem estabNode_of_sig_eq (q : Query) (hkq : nodeQueryOK q) (g h : Graph)
    (hsig : h.nodes.map sig = g.nodes.map sig) (hq : estabNode q g) :
    estabNode q h := by
  cases q with
  | edgeMerge rt s o u => trivial
  | nodeMerge l k v u =>
    obtain ⟨hk, _, _⟩ := hkq
    rw [estabNode] at hq ⊢
    obtain ⟨nd, hnd, hmatch⟩ := List.any_eq_true.mp hq
    have hmem : sig nd ∈ h.nodes.map sig := by
      rw [hsig]
      exact List.mem_map_of_mem _ hnd
    obtain ⟨nd', hnd', hsigeq⟩ := List.mem_map.mp hmem
    apply List.any_eq_true.mpr
    refine ⟨nd', hnd', ?_⟩
    obtain ⟨hl, hkv⟩ := (nodeMatches_iff _ _ _ _).mp hmatch
    unfold sig at hsigeq
    rw [Prod.mk.injEq, Prod.mk.injEq] at hsigeq
    obtain ⟨e1, e2, e3⟩ := hsigeq
    apply (nodeMatches_iff _ _ _ _).mpr
    rcases hk with h1 | h1 <;> subst h1
    · exact ⟨by rw [e1, hl], by rw [e3, hkv]⟩
    · exact ⟨by rw [e1, hl], by rw [e2, hkv]⟩

theorem replay_node_phase (nq : List Query) (hok : ∀ q ∈ nq, nodeQueryOK q) :
    ∀ h1 : Graph, (∀ q ∈ nq, estabNode q h1) →
    (applyAll h1 nq).nodes.map sig = h1.nodes.map sig ∧
    (applyAll h1 nq).edges = h1.edges := by
  induction nq with
  | nil => intro h1 _; exact ⟨rfl, rfl⟩
  | cons q rest ih =>
    intro h1 hest
    have hq := hok q (List.mem_cons_self _ _)
    cases q with
    | edgeMerge rt s o u => exact hq.elim
    | nodeMerge l k v u =>
      have hm : h1.nodes.any (nodeMatches l k v) = true := hest _ (List.mem_cons_self _ _)
      obtain ⟨hsig1, hedge1⟩ := sig_map_nodeMerge h1 l k v u hm hq.2.1 hq.2.2
      rw [applyAll_cons]
      have hrest : ∀ q' ∈ rest, estabNode q' (runQuery h1 (.nodeMerge l k v u)) :=
        fun q' hq' => estabNode_of_sig_eq q' (hok q' (List.mem_cons_of_mem _ hq')) h1 _
          hsig1 (hest q' (List.mem_cons_of_mem _ hq'))
      obtain ⟨ih1, ih2⟩ := ih (fun x hx => hok x (List.mem_cons_of_mem _ hx)) _ hrest
      exact ⟨ih1.trans hsig1, ih2.trans hedge1⟩

theorem nameMatchIdx_of_sig_eq (g h : Graph)
    (hsig : h.nodes.map sig = g.nodes.map sig) (v : Val) :
    nameMatchIdx h v = nameMatchIdx g v := by
  have hlen : h.nodes.length = g.nodes.length := by
    have hc := congrArg List.length hsig
    simpa using hc
  unfold nameMatchIdx
  rw [hlen]
  apply List.filter_congr
  intro i _
  have hpt : h.nodes[i]?.map sig = g.nodes[i]?.map sig := by
    rw [← List.getElem?_map, ← List.getElem?_map, hsig]
  cases hh : h.nodes[i]? with
  | none =>
    cases hg : g.nodes[i]? with
    | none => rfl
    | some nd => rw [hh, hg] at hpt; simp at hpt
  | some nd' =>
    cases hg : g.nodes[i]? with
    | none => rw [hh, hg] at hpt; simp at hpt
    | some nd =>
      rw [hh, hg] at hpt
      simp only [Option.map_some', Option.some.injEq] at hpt
      unfold sig at hpt
      rw [Prod.mk.injEq, Prod.mk.injEq] at hpt
      simp only
      rw [hpt.2.1]

theorem edgeExists_of_ekey_eq (e2 e1 : List GEdge) (h : e2.map ekey = e1.map ekey)
    (i j : Nat) (rt : String) (hex : edgeExists i j rt e1) :
    edgeExists i j rt e2 := by
  obtain ⟨e, he, hmatch⟩ := List.any_eq_true.mp hex
  have hmem : ekey e ∈ e2.map ekey := by
    rw [h]
    exact List.mem_map_of_mem _ he
  obtain ⟨e', he', hkeq⟩ := List.mem_map.mp hmem
  apply List.any_eq_true.mpr
  refine ⟨e', he', ?_⟩
  obtain ⟨h1, h2, h3⟩ := (edgeKeyMatches_iff _ _ _ _).mp hmatch
  unfold ekey at hkeq
  rw [Prod.mk.injEq, Prod.mk.injEq] at hkeq
  exact (edgeKeyMatches_iff _ _ _ _).mpr
    ⟨by rw [hkeq.1, h1], by rw [hkeq.2.1, h2], by rw [hkeq.2.2, h3]⟩

theorem foldl_all_exists_ekey (rt : String) (u : Record) (ps : List (Nat × Nat)) :
    ∀ es : List GEdge, (∀ p ∈ ps, edgeExists p.1 p.2 rt es) →
    (ps.foldl (mergeEdgeStep rt u) es).map ekey = es.map ekey := by
  induction ps with
  | nil => intro es _; rfl
  | cons p rest ih =>
    intro es hall
    rw [List.foldl_cons]
    have hp : es.any (edgeKeyMatches p.1 p.2 rt) = true := hall p (List.mem_cons_self _ _)
    have hstep : (mergeEdgeStep rt u es p).map ekey = es.map ekey := by
      unfold mergeEdgeStep
      simp only [hp, if_true]
      rw [List.map_map]
      apply List.map_congr_left
      intro e _
      by_cases h : edgeKeyMatches p.1 p.2 rt e = true <;> simp [h, ekey]
    have hall' : ∀ p' ∈ rest, edgeExists p'.1 p'.2 rt (mergeEdgeStep rt u es p) :=
      fun p' hp' => edgeExists_of_ekey_eq _ es hstep _ _ _
        (hall p' (List.mem_cons_of_mem _ hp'))
    rw [ih _ hall', hstep]

theorem replay_edge_phase (eqs : List Query) (hok : ∀ q ∈ eqs, edgeQueryOK q)
    (g1 : Graph) :
    ∀ h : Graph, h.nodes.map sig = g1.nodes.map sig →
      h.edges.map ekey = g1.edges.map ekey →
      (∀ q ∈ eqs, estabEdge q g1) →
      (applyAll h eqs).nodes = h.nodes ∧
      (applyAll h eqs).edges.map ekey = g1.edges.map ekey := by
  induction eqs with
  | nil => intro h _ he _; exact ⟨rfl, he⟩
  | cons q rest ih =>
    intro h hsig hekey hest
    cases q with
    | nodeMerge l k v u => exact ((hok _ (List.mem_cons_self _ _)).elim)
    | edgeMerge rt s o u =>
      have hidxs : nameMatchIdx h s = nameMatchIdx g1 s := nameMatchIdx_of_sig_eq g1 h hsig s
      have hidxo : nameMatchIdx h o = nameMatchIdx g1 o := nameMatchIdx_of_sig_eq g1 h hsig o
      have hq := hest _ (List.mem_cons_self _ _)
      rw [estabEdge] at hq
      have hall : ∀ p ∈ listProd (nameMatchIdx h s) (nameMatchIdx h o),
          edgeExists p.1 p.2 rt h.edges := by
        intro p hp
        rw [hidxs, hidxo] at hp
        exact edgeExists_of_ekey_eq h.edges g1.edges hekey _ _ _ (hq p hp)
      have hstep : (runQuery h (.edgeMerge rt s o u)).edges.map ekey
          = h.edges.map ekey :=
        foldl_all_exists_ekey rt u _ h.edges hall
      have hnodes : (runQuery h (.edgeMerge rt s o u)).nodes = h.nodes := rfl
      rw [applyAll_cons]
      obtain ⟨ihn, ihe⟩ := ih (fun x hx => hok x (List.mem_cons_of_mem _ hx)) _
        (by rw [hnodes]; exact hsig) (hstep.trans hekey)
        (fun x hx => hest x (List.mem_cons_of_mem _ hx))
      exact ⟨ihn.trans hnodes, ihe⟩

/-- Core idempotence: a node phase followed by an edge phase, replayed on its
own output, changes neither the node count nor the edge count. -/
theorem applyAll_idem_counts (nq eqs : List Query)
    (hn : ∀ q ∈ nq, nodeQueryOK q) (he : ∀ q ∈ eqs, edgeQueryOK q) (g : Graph) :
    (applyAll (applyAll g (nq ++ eqs)) (nq ++ eqs)).nodes.length
        = (applyAll g (nq ++ eqs)).nodes.length ∧
    (applyAll (applyAll g (nq ++ eqs)) (nq ++ eqs)).edges.length
        = (applyAll g (nq ++ eqs)).edges.length := by
  rw [applyAll_append, applyAll_append]
  set gn := applyAll g nq with hgn
  set g1 := applyAll gn eqs with hg1
  have hestN_gn : ∀ q ∈ nq, estabNode q gn := run1_estabNode nq hn g
  have hnodes_g1 : g1.nodes = gn.nodes := edge_phase_nodes eqs he gn
  have hestN : ∀ q ∈ nq, estabNode q g1 :=
    fun q hq => estabNode_nodes_eq q gn g1 hnodes_g1 (hestN_gn q hq)
  have hestE : ∀ q ∈ eqs, estabEdge q g1 := run1_estabEdge eqs he gn
  obtain ⟨hsig, hedges⟩ := replay_node_phase nq hn g1 hestN
  set h2 := applyAll g1 nq with hh2
  obtain ⟨hn2, he2⟩ := replay_edge_phase eqs he g1 h2 hsig
    (by rw [hedges]) hestE
  constructor
  · rw [hn2]
    have hc := congrArg List.length hsig
    simpa using hc
  · have hc := congrArg List.length he2
    simpa using hc

/-! ## The exporter's queries satisfy the invariants -/

theorem paper_query_ok (pid : Val) (p : Record) : nodeQueryOK (paper_query pid p) := by
  refine ⟨Or.inl rfl, ?_, ?_⟩ <;>
  · intro e he h1
    simp only [paper_query, List.mem_cons, List.not_mem_nil, or_false] at he
    have hne1 : ("doi" : String) ≠ "name" := by decide
    have hne2 : ("title" : String) ≠ "name" := by decide
    have hne3 : ("authors" : String) ≠ "name" := by decide
    have hne4 : ("year" : String) ≠ "name" := by decide
    have hne5 : ("date_added" : String) ≠ "name" := by decide
    have hne1' : ("doi" : String) ≠ "paper_id" := by decide
    have hne2' : ("title" : String) ≠ "paper_id" := by decide
    have hne3' : ("authors" : String) ≠ "paper_id" := by decide
    have hne4' : ("year" : String) ≠ "paper_id" := by decide
    have hne5' : ("date_added" : String) ≠ "paper_id" := by decide
    rcases he with rfl | rfl | rfl | rfl | rfl <;>
      first
        | exact absurd h1 hne1 | exact absurd h1 hne2 | exact absurd h1 hne3
        | exact absurd h1 hne4 | exact absurd h1 hne5
        | exact absurd h1 hne1' | exact absurd h1 hne2' | exact absurd h1 hne3'
        | exact absurd h1 hne4' | exact absurd h1 hne5'

theorem term_props_name_val (tid : String) (td : Record) :
    ∀ e ∈ term_props tid td, e.1 = "name" → e.2 = .vStr tid := by
  intro e he h1
  rcases term_props_mem tid td e he with h | h | h | h
  · rw [h]
  · rw [h] at h1
    have h2 : ("definition" : String) = "name" := h1
    exact absurd h2 (by decide)
  · rw [h] at h1
    have h2 : ("source" : String) = "name" := h1
    exact absurd h2 (by decide)
  · rw [h1] at h; exact absurd h.1 (by decide)

theorem term_props_no_paper_id (tid : String) (td : Record) :
    ∀ e ∈ term_props tid td, e.1 ≠ "paper_id" := by
  intro e he h1
  rcases term_props_mem tid td e he with h | h | h | h
  · rw [h] at h1
    have h2 : ("name" : String) = "paper_id" := h1
    exact absurd h2 (by decide)
  · rw [h] at h1
    have h2 : ("definition" : String) = "paper_id" := h1
    exact absurd h2 (by decide)
  · rw [h] at h1
    have h2 : ("source" : String) = "paper_id" := h1
    exact absurd h2 (by decide)
  · rw [h1] at h; exact absurd h.1 (by decide)

theorem term_query_ok (cat tid : String) (td : Record) :
    nodeQueryOK (term_query cat tid td) := by
  refine ⟨Or.inr rfl, ?_, ?_⟩
  · intro e he h1
    exact ⟨rfl, term_props_name_val tid td e he h1⟩
  · intro e he h1
    exact absurd h1 (term_props_no_paper_id tid td e he)

theorem paperQueries_ok (papers : List Record) :
    ∀ q ∈ paperQueries papers, nodeQueryOK q := by
  intro q hq
  obtain ⟨pid, p, rfl⟩ := paperQueries_mem papers q hq
  exact paper_query_ok pid p

theorem termQueries_ok (cats : TermsDict) :
    ∀ q ∈ termQueries cats, nodeQueryOK q := by
  intro q hq
  obtain ⟨cat, tid, td, rfl⟩ := termQueries_mem cats q hq
  exact term_query_ok cat tid td

theorem relQueries_edgeOK (rels : List Record) :
    ∀ q ∈ relQueries rels, edgeQueryOK q := by
  intro q hq
  obtain ⟨rt, sv, ov, u, rfl⟩ := relQueries_mem rels q hq
  trivial

/-! ## C1 -/

/-- C1: synchronizing a fixed well-formed corpus twice in succession leaves
the backend with the same node and relationship counts as synchronizing it
once — every write is a match-or-create on the natural key (`paper_id` for
Paper, `name` for term nodes, the endpoint-pair-plus-type triple for edges),
so the second run only updates. -/
theorem sync_corpus_idempotent_counts (papers : List Record) (terms : TermsDict)
    (rels : RelsDict) (g : Graph)
    (hp : papersWF papers = true) (hr : relsWF rels.relationships = true) :
    ∃ s1 s2, sync_corpus papers terms rels g = .ok s1 ∧
      sync_corpus papers terms rels s1.g = .ok s2 ∧
      s2.g.nodes.length = s1.g.nodes.length ∧
      s2.g.edges.length = s1.g.edges.length := by
  refine ⟨_, _, sync_corpus_nf papers terms rels g hp hr,
          sync_corpus_nf papers terms rels _ hp hr, ?_, ?_⟩ <;>
  · have hsplit : corpusQueries papers terms rels
        = (paperQueries papers ++ termQueries terms) ++ relQueries rels.relationships := by
      rw [corpusQueries]
    have hn : ∀ q ∈ paperQueries papers ++ termQueries terms, nodeQueryOK q := by
      intro q hq
      rcases List.mem_append.mp hq with h | h
      · exact paperQueries_ok papers q h
      · exact termQueries_ok terms q h
    have he := relQueries_edgeOK rels.relationships
    have hidem := applyAll_idem_counts (paperQueries papers ++ termQueries terms)
      (relQueries rels.relationships) hn he g
    rw [← hsplit] at hidem
    first
      | exact hidem.1
      | exact hidem.2

/-- Witness corpus: one paper, two term categories, one relationship. -/
def wPapers : List Record := [[("paper_id", .vStr "p1"), ("title", .vStr "T")]]

def wTerms : TermsDict :=
  [("mechanisms", [("m1", [("definition", .vStr "d")])]),
   ("proteins", [("q1", [])])]

def wRels : RelsDict :=
  { relationships := [[("subject", .vStr "m1"), ("predicate", .vStr "exhibits"),
                       ("object", .vStr "q1")]],
    hierarchies := none, process_flows := none }

/-- Witness for C1 on the concrete corpus, starting from an empty backend. -/
theorem sync_corpus_idempotent_counts_witness :
    papersWF wPapers = true ∧ relsWF wRels.relationships = true ∧
    ∃ s1 s2, sync_corpus wPapers wTerms wRels { nodes := [], edges := [] } = .ok s1 ∧
      sync_corpus wPapers wTerms wRels s1.g = .ok s2 ∧
      s2.g.nodes.length = s1.g.nodes.length ∧
      s2.g.edges.length = s1.g.edges.length :=
  ⟨by decide, by decide,
   sync_corpus_idempotent_counts wPapers wTerms wRels { nodes := [], edges := [] }
     (by decide) (by decide)⟩

/-- Witness for C2 on the concrete corpus. -/
theorem preview_matches_sync_attempts_witness :
    papersWF wPapers = true ∧ relsWF wRels.relationships = true ∧
    ∃ nc rc sess,
      preview_export wPapers wTerms wRels = .ok (nc, rc) ∧
      sync_corpus wPapers wTerms wRels { nodes := [], edges := [] } = .ok sess ∧
      (∀ t, cmGet nc t = countNodeWrites sess.log t) ∧
      (∀ rt, cmGet rc rt = countRelWrites sess.log rt) :=
  ⟨by decide, by decide,
   preview_matches_sync_attempts wPapers wTerms wRels { nodes := [], edges := [] }
     (by decide) (by decide)⟩
